import Mathlib

/-!
Shallow embedding of the editing core of `xyproto/favicon` (a terminal text
editor with a favicon text-grid codec), translated from the Go sources:
the sparse line buffer (`map[int][]rune`), cursor/position bookkeeping,
line-structure mutations, word wrap, save/load serialization and the
favicon writer.  Go maps are embedded as association lists of
`Int × List Char` kept sorted by key (a canonical representative of the
extensional finite map; every map iteration in the embedded functions is
order-independent, so this is faithful).  Go loops whose termination is
not structural are embedded with an explicit fuel that provably exceeds
the number of iterations the Go loop performs on the inputs considered.
-/

set_option linter.unusedVariables false

/-- Embedding of Go `unicode.IsSpace` (the Unicode White_Space property). -/
def goIsSpace (c : Char) : Bool :=
  (c = ' ') || (c = '\t') || (c = '\n') || (c.toNat = 11) || (c.toNat = 12) ||
  (c = '\r') || (c.toNat = 0x85) || (c.toNat = 0xA0) || (c.toNat = 0x1680) ||
  (0x2000 ≤ c.toNat && c.toNat ≤ 0x200A) || (c.toNat = 0x2028) || (c.toNat = 0x2029) ||
  (c.toNat = 0x202F) || (c.toNat = 0x205F) || (c.toNat = 0x3000)

/-- The contents of the document: embedding of Go `map[int][]rune` as an
association list sorted by key. -/
abbrev LineMap := List (Int × List Char)

/-- Embedding of a Go map read `m[k]` returning presence. -/
def lmLookup : LineMap → Int → Option (List Char)
  | [], _ => none
  | (k, v) :: rest, j => if j = k then some v else lmLookup rest j

/-- Embedding of the Go `_, ok := m[k]` presence test. -/
def lmContains (m : LineMap) (j : Int) : Bool :=
  (lmLookup m j).isSome

/-- Embedding of a Go map write `m[k] = v` (sorted insertion/replacement). -/
def lmInsert : LineMap → Int → List Char → LineMap
  | [], j, v => [(j, v)]
  | (k, w) :: rest, j, v =>
    if j = k then (k, v) :: rest
    else if j < k then (j, v) :: (k, w) :: rest
    else (k, w) :: lmInsert rest j v

/-- Embedding of Go `delete(m, k)`. -/
def lmErase : LineMap → Int → LineMap
  | [], _ => []
  | (k, w) :: rest, j => if j = k then rest else (k, w) :: lmErase rest j

/-- Embedding of Go `len(m)` (number of keys; the maps we build have
no duplicate keys). -/
def lmSize (m : LineMap) : Nat := m.length

/-- The fold performed by Go loops of the shape
`maxy := 0; for y := range e.lines { if y > maxy { maxy = y } }`. -/
def lmMaxKeyFold (m : LineMap) (acc : Int) : Int :=
  m.foldl (fun maxy kv => if kv.1 > maxy then kv.1 else maxy) acc

/-- The length reported by `Editor.Len`, at the map level:
`maxy := 0`, fold the keys, return `maxy + 1`. -/
def lmLen (m : LineMap) : Int :=
  lmMaxKeyFold m 0 + 1

/-- Embedding of the per-filetype `Mode` constants of the source. -/
inductive Mode where
  | modeBlank
  | modeGray4
  | modeRGB
  | modeRGBA
  deriving DecidableEq

/-- Modelled from the spec: the `Position` struct is not among the provided
source files (only its uses are); §3 of the spec gives its fields as
`{screen_x, screen_y, scroll_offset, saved_x}`, named `sx`, `sy`, `offset`
and `savedX` at the use sites in the source. -/
structure Position where
  sx : Int
  sy : Int
  offset : Int
  savedX : Int
  deriving DecidableEq

/-- Modelled from the spec: `Position.SetX` is not among the provided source
files; per §3/§4.2 it stores a screen column into `screen_x`. -/
def Position.SetX (p : Position) (x : Int) : Position :=
  { p with sx := x }

/-- The interface of the external `vt100.Canvas` collaborator that the
embedded functions consult (`Width`, `Height`); spec §6. -/
structure Canvas where
  width : Int
  height : Int
  deriving DecidableEq

/-- Embedding of the `Editor` struct (the fields the embedded operations
read or write; colors are presentation-only and omitted). -/
structure Editor where
  lines : LineMap
  changed : Bool
  drawMode : Bool
  pos : Position
  redraw : Bool
  redrawCursor : Bool
  wordWrapAt : Int
  mode : Mode
  deriving DecidableEq

/-- A plain constructor used to build concrete editors in theorems
(the source's `NewEditor` additionally takes colors; it sets
`wordWrapAt` to 99 and starts with an empty line map). -/
def mkEditor (m : LineMap) (p : Position) (drawMode : Bool) (wordWrapAt : Int) : Editor :=
  { lines := m, changed := false, drawMode := drawMode, pos := p,
    redraw := false, redrawCursor := false, wordWrapAt := wordWrapAt,
    mode := Mode.modeBlank }

/-- Embedding of `Editor.Set`: store a rune at data coordinates, padding
the line with spaces when the column is past the end.  A negative column
inside the line bounds would make the Go code panic; that case is
unreachable from the embedded callers and is modelled as a no-op. -/
def Editor.Set (e : Editor) (x y : Int) (r : Char) : Editor :=
  let l := (lmLookup e.lines y).getD []
  if x < (l.length : Int) then
    if 0 ≤ x then
      { e with lines := lmInsert e.lines y (l.set x.toNat r), changed := true }
    else e
  else
    -- If the line is too short, fill it up with spaces, then write at x
    let l' := l ++ List.replicate (x - l.length).toNat ' ' ++ [r]
    { e with lines := lmInsert e.lines y l', changed := true }

/-- Embedding of `Editor.Get`: retrieve a rune at the given coordinates;
`none` models the Go panic on a negative in-bounds index (unreachable from
the embedded callers). -/
def Editor.Get (e : Editor) (x y : Int) : Option Char :=
  match lmLookup e.lines y with
  | none => some ' '
  | some runes =>
    if (runes.length : Int) ≤ x then some ' '
    else if 0 ≤ x then some (runes.getD x.toNat ' ')
    else none

/-- Embedding of `Editor.Line`: the contents of line `n`, or empty if absent. -/
def Editor.Line (e : Editor) (n : Int) : List Char :=
  match lmLookup e.lines n with
  | some line => line
  | none => []

/-- Embedding of `Editor.Len`: `maxy := 0`, fold the keys, return `maxy + 1`. -/
def Editor.Len (e : Editor) : Int :=
  lmMaxKeyFold e.lines 0 + 1

/-- Embedding of `Editor.LastDataPosition`: `len(line) - 1` (may be negative). -/
def Editor.LastDataPosition (e : Editor) (n : Int) : Int :=
  (e.Line n).length - 1

/-- Embedding of `Editor.LastScreenPosition` (this source version returns
the data position unchanged). -/
def Editor.LastScreenPosition (e : Editor) (n : Int) : Int :=
  e.LastDataPosition n

/-- Embedding of `Editor.FirstScreenPosition`: count of leading whitespace runes. -/
def Editor.FirstScreenPosition (e : Editor) (n : Int) : Int :=
  ((e.Line n).takeWhile goIsSpace).length

/-- Embedding of `Editor.Clear`. -/
def Editor.Clear (e : Editor) : Editor :=
  { e with lines := [], changed := true }

/-- Embedding of `Editor.DataY`: screen row in draw mode, scroll offset plus
screen row in text mode. -/
def Editor.DataY (e : Editor) : Int :=
  if e.drawMode then e.pos.sy else e.pos.offset + e.pos.sy

/-- The scanning loop of `Editor.DataX`: both counters advance together in
this source version (no tab expansion is performed); returns the data index
paired with an error flag, `true` modelling the "position is after data"
error carrying the rune count reached. -/
def dataXLoop (line : List Char) (sx : Int) (counter : Int) : Int × Bool :=
  match line with
  | [] => (counter, true)
  | _ :: rest => if counter = sx then (counter, false) else dataXLoop rest sx (counter + 1)

/-- Embedding of `Editor.DataX`: the X position in the data. -/
def Editor.DataX (e : Editor) : Int × Bool :=
  if e.drawMode then (e.pos.sx, false)
  else
    let dataY := e.pos.offset + e.pos.sy
    dataXLoop ((lmLookup e.lines dataY).getD []) e.pos.sx 0

/-- Embedding of `Editor.AtOrAfterEndOfLine`. -/
def Editor.AtOrAfterEndOfLine (e : Editor) : Bool :=
  let (x, err) := e.DataX
  if err then true else decide (x ≥ e.LastDataPosition e.DataY)

/-- Embedding of `Editor.WithinLimit`: is line `y` within the word wrap limit? -/
def Editor.WithinLimit (e : Editor) (y : Int) : Bool :=
  decide ((((lmLookup e.lines y).getD []).length : Int) < e.wordWrapAt)

/-- The backwards scan of `Editor.TrimRight` looking for the last non-space
index; `none` models the loop running past index 0 without a break (the Go
code then keeps the initial `lastIndex`).  `fuel ≥ x + 1` covers every
iteration the Go loop performs. -/
def trimRightFindLoop (l : List Char) : Nat → Int → Option Int
  | 0, _ => none
  | fuel + 1, x =>
    if 0 ≤ x then
      if goIsSpace (l.getD x.toNat ' ') then trimRightFindLoop l fuel (x - 1) else some x
    else none

/-- The pure line transformation performed by `Editor.TrimRight`:
truncate after the last non-space rune, keeping the line unchanged when the
scan finds none (all-whitespace lines are left as they are). -/
def trimRightLine (l : List Char) : List Char :=
  let lastIndex : Int := (l.length : Int) - 1
  let lastIndex := (trimRightFindLoop l l.length lastIndex).getD lastIndex
  l.take (lastIndex + 1).toNat

/-- Embedding of `Editor.TrimRight`: remove whitespace from the end of the
given line number (no-op when the line is absent). -/
def Editor.TrimRight (e : Editor) (n : Int) : Editor :=
  match lmLookup e.lines n with
  | none => e
  | some l => { e with lines := lmInsert e.lines n (trimRightLine l), changed := true }

/-- The loop of `Editor.MakeConsistent`: `for i := 0; i < len(e.lines); i++`,
inserting an empty line at any missing index below the (growing) size.
On maps whose keys are non-negative the Go loop performs at most
`maxKey + 2` iterations, which the chosen fuel covers. -/
def makeConsistentLoop : Nat → LineMap → Bool → Int → LineMap × Bool
  | 0, m, ch, _ => (m, ch)
  | fuel + 1, m, ch, i =>
    if i < (lmSize m : Int) then
      if lmContains m i then makeConsistentLoop fuel m ch (i + 1)
      else makeConsistentLoop fuel (lmInsert m i []) true (i + 1)
    else (m, ch)

/-- Fuel that covers every iteration `Editor.MakeConsistent` performs on a
map with non-negative keys. -/
def mcFuel (m : LineMap) : Nat :=
  (lmMaxKeyFold m 0).toNat + lmSize m + 2

/-- The map-level core of `Editor.MakeConsistent` (the method touches only
`lines` and `changed`). -/
def mcLines (m : LineMap) (ch : Bool) : LineMap × Bool :=
  makeConsistentLoop (mcFuel m) m ch 0

/-- Embedding of `Editor.MakeConsistent`: create an empty line for any
missing index below the length. -/
def Editor.MakeConsistent (e : Editor) : Editor :=
  { e with lines := (mcLines e.lines e.changed).1, changed := (mcLines e.lines e.changed).2 }

/-- The trailing-blank-line trimming loop shared by `InsertLineAbove` and
`InsertLineBelowAt`: `for i := len(e.lines); i > y; i--`, deleting empty
(or absent) lines from the top and stopping at the first non-empty one. -/
def skipTrailingLoop : Nat → LineMap → Int → Int → LineMap
  | 0, m, _, _ => m
  | fuel + 1, m, i, y =>
    if y < i then
      if ((lmLookup m i).getD []).length = 0 then skipTrailingLoop fuel (lmErase m i) (i - 1) y
      else m
    else m

/-- The map rebuild shared by `InsertLineAbove` (with `p = y - 1`) and
`InsertLineBelowAt` (with `p = y`): keys below `p` are kept, a blank line is
placed above the entry at `p`, and keys above `p` are shifted up by one. -/
def shiftInsertAt (m : LineMap) (p : Int) : LineMap :=
  m.flatMap (fun kv =>
    if kv.1 < p then [kv]
    else if kv.1 = p then [kv, (kv.1 + 1, [])]
    else [(kv.1 + 1, kv.2)])

/-- The map-level core of `Editor.InsertLineBelowAt` (the method touches
only `lines` and `changed`). -/
def insertLineBelowAtLines (m : LineMap) (ch : Bool) (y : Int) : LineMap × Bool :=
  let r := mcLines m ch
  -- If we are at the last line, add an empty line at the end and return
  if y = (lmSize r.1 : Int) - 1 then (lmInsert r.1 (y + 1) [], true)
  else
    let r2 := mcLines (shiftInsertAt r.1 y) r.2
    let i0 : Int := (lmSize r2.1 : Int)
    let m3 := skipTrailingLoop ((i0 - y).toNat + 1) r2.1 i0 y
    mcLines m3 true

/-- Embedding of `Editor.InsertLineBelowAt`. -/
def Editor.InsertLineBelowAt (e : Editor) (y : Int) : Editor :=
  { e with lines := (insertLineBelowAtLines e.lines e.changed y).1,
           changed := (insertLineBelowAtLines e.lines e.changed y).2 }

/-- The map-level core of `Editor.InsertLineAbove`, with `y` standing for
`e.DataY()` (the method touches only `lines` and `changed`). -/
def insertLineAboveLines (m : LineMap) (ch : Bool) (y : Int) : LineMap × Bool :=
  let r := mcLines (shiftInsertAt m (y - 1)) ch
  let i0 : Int := (lmSize r.1 : Int)
  let m3 := skipTrailingLoop ((i0 - y).toNat + 1) r.1 i0 y
  mcLines m3 true

/-- Embedding of `Editor.InsertLineAbove`. -/
def Editor.InsertLineAbove (e : Editor) : Editor :=
  { e with lines := (insertLineAboveLines e.lines e.changed e.DataY).1,
           changed := (insertLineAboveLines e.lines e.changed e.DataY).2 }

/-- Embedding of `Editor.InsertLineBelow`. -/
def Editor.InsertLineBelow (e : Editor) : Editor :=
  e.InsertLineBelowAt e.DataY

/-- The shifting loop of `Editor.DeleteLine`:
`for i := n; i <= maxIndex-1; i++ { e.lines[i] = e.lines[i+1] }`. -/
def shiftUpLoop : Nat → LineMap → Int → Int → LineMap
  | 0, m, _, _ => m
  | fuel + 1, m, i, maxIdx =>
    if i ≤ maxIdx - 1 then
      shiftUpLoop fuel (lmInsert m i ((lmLookup m (i + 1)).getD [])) (i + 1) maxIdx
    else m

/-- The map-level core of `Editor.DeleteLine` (the method touches only
`lines` and `changed`).  The Go `found` flag ends up true exactly when some
key exceeds the initial `maxIndex` value 0, regardless of iteration order. -/
def deleteLineLines (m : LineMap) (ch : Bool) (n : Int) : LineMap × Bool :=
  if n ≥ lmLen m - 1 then
    -- Just delete this line
    (lmErase m n, ch)
  else
    let maxIndex := lmMaxKeyFold m 0
    let found := m.any (fun kv => decide (kv.1 > 0))
    if ¬ found = true then (m, ch)
    else if ¬ lmContains m maxIndex = true then (m, ch)
    else
      let m2 := lmErase (shiftUpLoop ((maxIndex - n).toNat + 1) m n maxIndex) maxIndex
      mcLines m2 true

/-- Embedding of `Editor.DeleteLine`. -/
def Editor.DeleteLine (e : Editor) (n : Int) : Editor :=
  { e with lines := (deleteLineLines e.lines e.changed n).1,
           changed := (deleteLineLines e.lines e.changed n).2 }

/-- Embedding of `Editor.Delete`: delete a character at the current
position, joining with the next line when at or past the end of the line. -/
def Editor.Delete (e : Editor) : Editor :=
  let y := e.DataY
  let cur := (lmLookup e.lines y).getD []
  let llen := cur.length
  if ¬ lmContains e.lines y = true ∨ llen = 0 ∨ (llen = 1 ∧ goIsSpace (cur.headD ' ') = true) then
    { e.DeleteLine y with changed := true }
  else
    let p := e.DataX
    if p.2 = true ∨ p.1 ≥ (llen : Int) - 1 then
      -- on the last index, just use every element but x
      let e1 := { e with lines := lmInsert e.lines y (cur.take p.1.toNat) }
      match lmLookup e1.lines (y + 1) with
      | some nextLine =>
        if nextLine.length > 0 then
          let e2 := { e1 with lines := lmInsert e1.lines y (cur.take p.1.toNat ++ nextLine) }
          { e2.DeleteLine (y + 1) with changed := true }
        else { e1 with changed := true }
      | none => { e1 with changed := true }
    else
      -- Delete just this character
      Editor.MakeConsistent
        { e with lines := lmInsert e.lines y (cur.take p.1.toNat ++ cur.drop (p.1 + 1).toNat),
                 changed := true }

/-- Embedding of `Editor.Insert`: insert a rune at the current position with
no word wrap.  (The Go nil-map branch writes line 0 of a freshly allocated
map; a nil map cannot arise after `NewEditor`, and an absent map is modelled
as the empty map, handled by the absent-line branch.) -/
def Editor.Insert (e : Editor) (r : Char) : Editor :=
  let p := e.DataX
  let x := p.1
  let y := e.DataY
  match lmLookup e.lines y with
  | none => { e with lines := lmInsert e.lines y [r] }
  | some cur =>
    if (cur.length : Int) < x then
      -- Can only insert in the existing block of text
      e
    else
      Editor.MakeConsistent
        { e with lines := lmInsert e.lines y (cur.take x.toNat ++ [r] ++ cur.drop x.toNat),
                 changed := true }

/-- Embedding of `Editor.insertBelow`: insert the rune at the start of the
line below, starting a new line if required. -/
def Editor.insertBelow (e : Editor) (y : Int) (r : Char) : Editor :=
  match lmLookup e.lines (y + 1) with
  | none => { e with lines := lmInsert e.lines (y + 1) [r] }
  | some next =>
    if next.length > 0 then { e with lines := lmInsert e.lines (y + 1) (r :: next) }
    else { e with lines := lmInsert e.lines (y + 1) [r] }

/-- Embedding of `Editor.GoTo` (the `status` argument is `nil` at every
embedded call site and is omitted). -/
def Editor.GoTo (e : Editor) (dataY : Int) (c : Option Canvas) : Editor × Bool :=
  if dataY = e.DataY then (e, true)
  else
    let dr : Int × Bool :=
      if dataY < 0 then (0, false)
      else if dataY ≥ e.Len then (e.Len - 1, true)
      else (dataY, false)
    let dataY := dr.1
    let reachedEnd := dr.2
    let h : Int := match c with | none => 25 | some cv => cv.height
    let topY := e.pos.offset
    let botY := e.pos.offset + h
    let e :=
      if dataY ≥ topY ∧ dataY < botY then
        { e with pos := { e.pos with sy := dataY - e.pos.offset } }
      else if dataY < h then
        { e with pos := { e.pos with offset := 0, sy := dataY - 1 } }
      else if reachedEnd = true then
        { e with pos := { e.pos with offset := e.Len - h, sy := h - 1 } }
      else
        let prevY := e.pos.sy
        let lessJumpY := prevY
        let lessJumpOffset := dataY - prevY
        if lessJumpY + lessJumpOffset < e.Len then
          { e with pos := { e.pos with sy := lessJumpY, offset := lessJumpOffset } }
        else
          { e with pos := { e.pos with sy := 0, offset := dataY } }
    let e := { e with pos := e.pos.SetX (e.FirstScreenPosition e.DataY) }
    ({ e with redrawCursor := true }, true)

/-- Embedding of `Editor.nextLine`: go to the start of the next line. -/
def Editor.nextLine (e : Editor) (y : Int) (c : Option Canvas) : Editor :=
  let e := { e with pos := { e.pos with sx := 0 } }
  (e.GoTo (y + 1) c).1

/-- Embedding of Go `strings.TrimSpace`. -/
def goTrimSpace (s : List Char) : List Char :=
  ((s.dropWhile goIsSpace).reverse.dropWhile goIsSpace).reverse

/-- Embedding of Go `strings.Fields`: split around runs of whitespace. -/
def goFields : List Char → List Char → List (List Char)
  | [], acc => if acc.isEmpty then [] else [acc.reverse]
  | ch :: rest, acc =>
    if goIsSpace ch then
      if acc.isEmpty then goFields rest [] else acc.reverse :: goFields rest []
    else goFields rest (ch :: acc)

/-- Embedding of `Editor.LastWord`: the last word of line `y`, or empty. -/
def Editor.LastWord (e : Editor) (y : Int) : List Char :=
  (goFields (goTrimSpace ((lmLookup e.lines y).getD [])) []).getLastD []

/-- The backwards space scan of `Editor.SplitOvershoot`:
`for i := splitPosition; i >= 0; i--`, returning the first (largest) index
that is in bounds and holds a whitespace rune; `none` models the Go
`spacePosition == -1` outcome. -/
def spaceScanLoop (l : List Char) : Nat → Int → Option Int
  | 0, _ => none
  | fuel + 1, i =>
    if 0 ≤ i then
      if i < (l.length : Int) ∧ goIsSpace (l.getD i.toNat ' ') = true then some i
      else spaceScanLoop l fuel (i - 1)
    else none

/-- Embedding of `Editor.SplitOvershoot`: split a line at the wrap limit or
at a nearby space. -/
def Editor.SplitOvershoot (e : Editor) (y : Int) (isSpace : Bool) :
    List Char × List Char :=
  let maxDistance := Int.tdiv e.wordWrapAt 2
  if e.WithinLimit y then ((lmLookup e.lines y).getD [], [])
  else
    let cur := (lmLookup e.lines y).getD []
    let splitPosition : Int := e.wordWrapAt
    let splitPosition :=
      if isSpace then (e.DataX).1
      else
        match spaceScanLoop cur (splitPosition.toNat + 1) splitPosition with
        | none => splitPosition
        | some spacePosition =>
          if splitPosition - spacePosition > maxDistance then splitPosition
          else spacePosition
    let n := splitPosition
    let first := cur.take n.toNat
    let second := cur.drop n.toNat
    let second :=
      if second.length > 0 ∧ goIsSpace (second.headD ' ') = true then second.drop 1 else second
    (first, second)

/-- Total rune count of a line map, used to bound the iterations of
`Editor.WrapAllLinesAt` (each wrapping step moves a nonempty suffix to a
fresh line, so the loop runs at most `Len + total` iterations). -/
def lmTotalRunes (m : LineMap) : Nat :=
  (m.map (fun kv => kv.2.length)).sum

/-- The loop of `Editor.WrapAllLinesAt`. -/
def wrapAllLoop : Nat → Editor → Int → Bool → Editor × Bool
  | 0, e, _, w => (e, w)
  | fuel + 1, e, i, w =>
    if i < e.Len then
      if e.WithinLimit i then wrapAllLoop fuel e (i + 1) w
      else
        let fs := e.SplitOvershoot i false
        let e :=
          if fs.1.length > 0 ∧ fs.2.length > 0 then
            let e1 := e.InsertLineBelowAt i
            let e1 := { e1 with lines := lmInsert e1.lines i fs.1 }
            let e1 := { e1 with lines := lmInsert e1.lines (i + 1) fs.2, changed := true }
            -- Move the cursor as well
            if i < e1.DataY then { e1 with pos := { e1.pos with sy := e1.pos.sy + 1 } } else e1
          else e
        wrapAllLoop fuel e (i + 1) true
    else (e, w)

/-- Embedding of `Editor.WrapAllLinesAt`.  Note that the source ignores both
parameters and uses `e.wordWrapAt` (and `e.wordWrapAt / 2`) throughout. -/
def Editor.WrapAllLinesAt (e : Editor) (n maxOvershoot : Int) : Editor × Bool :=
  wrapAllLoop (e.Len.toNat + lmTotalRunes e.lines + 2) e 0 false

/-- The UTF-8 byte length of a rune, as Go `len(string(r))` counts it
(Lean's `Char` ranges over Unicode scalar values, so the 1/2/3/4-byte
thresholds cover every case). -/
def utf8CharLen (c : Char) : Nat :=
  if c.toNat < 0x80 then 1
  else if c.toNat < 0x800 then 2
  else if c.toNat < 0x10000 then 3
  else 4

/-- The UTF-8 byte length of a rune slice: Go `len(string(rs))`. -/
def utf8Len (l : List Char) : Nat :=
  (l.map utf8CharLen).sum

/-- The word-relocation body shared verbatim by the second and fifth cases
of the `Editor.InsertRune` switch (they differ only in how `lastWord` is
extended beforehand). -/
def insertRuneMoveWord (e : Editor) (c : Option Canvas) (y : Int) (r : Char)
    (prevAtSpace : Bool) (lastWord : List Char) : Editor :=
  let cur := (lmLookup e.lines y).getD []
  let pos : Int := (cur.length : Int) - lastWord.length
  if pos > 0 then
    let e := { e with lines := lmInsert e.lines y (cur.take pos.toNat) }
    let e := e.TrimRight y
    -- Insert the last word of the above line on the next line
    let er : Editor × List Char :=
      match lmLookup e.lines (y + 1) with
      | none =>
        let lastWord :=
          if prevAtSpace then lastWord.take (lastWord.length - 1) ++ [' '] ++ [r]
          else lastWord
        ({ e with lines := lmInsert e.lines (y + 1) lastWord }, lastWord)
      | some next =>
        if next.length > 0 then
          ({ e with lines := lmInsert e.lines (y + 1) (lastWord ++ next) }, lastWord)
        else (e, lastWord)
    let e := ((er.1).GoTo (y + 1) c).1
    { e with pos := { e.pos with sx := (er.2.length : Int) - 1 } }
  else
    -- This would leave the current line empty: push only the new rune down
    let e :=
      match lmLookup e.lines (y + 1) with
      | none => { e with lines := lmInsert e.lines (y + 1) [r] }
      | some next =>
        if next.length > 0 then { e with lines := lmInsert e.lines (y + 1) (r :: next) }
        else e
    e.nextLine y c

/-- Embedding of `Editor.InsertRune`: insert a rune at the current data
position, with word wrap.  The Go `switch` is embedded as a cascade of
`if`s evaluated in source order. -/
def Editor.InsertRune (e : Editor) (c : Option Canvas) (r : Char) : Editor :=
  let y := e.DataY
  -- If it's not a word-wrap situation, just insert and return
  if e.wordWrapAt = 0 ∨ e.WithinLimit y = true then e.Insert r
  else
    let e := { e with changed := true, redrawCursor := true, redraw := true }
    let isSpace := goIsSpace r
    let p := e.DataX
    let x := if p.2 then e.pos.sx else p.1
    let cur := (lmLookup e.lines y).getD []
    let prevAtSpace :=
      decide (x > 0) && decide (x ≤ (cur.length : Int)) && goIsSpace (cur.getD (x - 1).toNat ' ')
    let atSpace :=
      decide (0 ≤ x) && decide (x < (cur.length : Int)) && goIsSpace (cur.getD x.toNat ' ')
    let EOL := e.AtOrAfterEndOfLine
    let lastWord := goTrimSpace (e.LastWord y)
    let shortWord :=
      decide (utf8Len lastWord < 10) && decide ((utf8Len lastWord : Int) < e.wordWrapAt)
    let e :=
      if EOL = false then
        -- The line is full. Move everything one line down and continue writing.
        let right := cur.drop x.toNat
        let e := { e with lines := lmInsert e.lines y (cur.take x.toNat) }
        let e := e.TrimRight y
        let e := e.insertBelow y r
        let e := { e with lines := lmInsert e.lines (y + 1) (r :: right) }
        let e := (e.GoTo (y + 1) c).1
        { e with pos := { e.pos with sx := 0 } }
      else if isSpace = false ∧ atSpace = false ∧ EOL = true then
        -- Pressing letters, producing a short word that overflows
        insertRuneMoveWord e c y r prevAtSpace (lastWord ++ [r])
      else if isSpace = true ∧ EOL = true then
        -- Space at the end of a long word
        e.InsertLineBelowAt y
      else if (isSpace = false ∧ EOL = true ∧ shortWord = false)
          ∨ (isSpace = false ∧ prevAtSpace = true ∧ EOL = true)
          ∨ (isSpace = false ∧ atSpace = true ∧ prevAtSpace = false ∧ EOL = true ∧ shortWord = true)
          ∨ (isSpace = false ∧ atSpace = false ∧ prevAtSpace = false ∧ EOL = true ∧ shortWord = false) then
        -- Pressing a single letter
        (e.insertBelow y r).nextLine y c
      else if isSpace = false ∧ atSpace = false ∧ prevAtSpace = false ∧ EOL = true ∧ shortWord = true then
        -- Typing a letter or a space, and the word is short, so it should be moved down
        insertRuneMoveWord e c y r prevAtSpace (if isSpace then lastWord else lastWord ++ [r])
      else
        e.Insert r
    (e.TrimRight y).MakeConsistent

/-- Embedding of `Editor.String` (named `stringContents` here since `String`
is taken inside the `Editor` namespace): the lines joined with a newline after
each (indices `0 ≤ i < e.Len()`). -/
def Editor.stringContents (e : Editor) : List Char :=
  (List.range e.Len.toNat).foldl (fun acc (i : Nat) => acc ++ e.Line (i : Int) ++ ['\n']) []

/-- Embedding of Go `bytes.TrimRightFunc(data, unicode.IsSpace)`. -/
def goTrimRightSpace (s : List Char) : List Char :=
  (s.reverse.dropWhile goIsSpace).reverse

/-- Embedding of `bytes.Replace(data, []byte{0xc2,0xa0}, []byte{0x20}, -1)`:
in valid UTF-8 the byte pair `c2 a0` occurs exactly as the encoding of
U+00A0, so at rune level this replaces every no-break space by a space. -/
def replaceNbsp (s : List Char) : List Char :=
  s.map (fun ch => if ch = Char.ofNat 0xA0 then ' ' else ch)

/-- Embedding of `bytes.Replace(data, "\r\n", "\n", -1)` (leftmost,
non-overlapping). -/
def replaceCRLF : List Char → List Char
  | '\r' :: '\n' :: rest => '\n' :: replaceCRLF rest
  | ch :: rest => ch :: replaceCRLF rest
  | [] => []

/-- Embedding of Go `bytes.Split(data, sep)` for a one-byte separator. -/
def splitChar (sep : Char) : List Char → List (List Char)
  | [] => [[]]
  | ch :: rest =>
    if ch = sep then [] :: splitChar sep rest
    else
      match splitChar sep rest with
      | h :: t => (ch :: h) :: t
      | [] => [[ch]]

/-- The trimming loop of `Editor.Save`:
`for i := 0; i < e.Len(); i++ { e.TrimRight(i) }` (the fuel covers every
iteration since `TrimRight` never changes the key set). -/
def trimAllLoop : Nat → Editor → Int → Editor
  | 0, e, _ => e
  | fuel + 1, e, i => if i < e.Len then trimAllLoop fuel (e.TrimRight i) (i + 1) else e

/-- An RGBA pixel as produced by the favicon writer. -/
structure Rgba where
  r : Nat
  g : Nat
  b : Nat
  a : Nat
  deriving DecidableEq

/-- Embedding of the `lookupRunes` map (a Go map read of a missing rune
yields the zero byte). -/
def lookupRunes (ch : Char) : Nat :=
  if ch = '_' then 0 else if ch = ',' then 1 else if ch = '.' then 2
  else if ch = Char.ofNat 39 then 3 else if ch = '-' then 4 else if ch = '~' then 5
  else if ch = '+' then 6 else if ch = ':' then 7 else if ch = '*' then 8
  else if ch = '<' then 9 else if ch = '=' then 10 else if ch = '!' then 11
  else if ch = '%' then 12 else if ch = Char.ofNat 123 then 15 else if ch = '$' then 13
  else if ch = '@' then 14 else 0

/-- One drawn row of the favicon image: for each of the 16 pixel columns,
the rune at text column `2x` selects the pixel. -/
def faviconRow (line : List Char) : List Rgba :=
  (List.range 16).map (fun x =>
    if 2 * x < line.length then
      let ch := line.getD (2 * x) ' '
      if ch = 'T' then ⟨0, 0, 0, 0⟩
      else
        let i := lookupRunes ch * 16 + 15
        ⟨i, i, i, 0xff⟩
    else ⟨0xff, 0xff, 0xff, 0⟩)

/-- The pixel-drawing loop of `WriteFavicon`: at most 16 text lines are
drawn; rows beyond the text keep the zero-initialized pixels. -/
def drawFavicon (text : List Char) : List (List Rgba) :=
  let ls := splitChar '\n' text
  (List.range 16).map (fun y =>
    if y < ls.length then faviconRow (ls.getD y []) else List.replicate 16 ⟨0, 0, 0, 0⟩)

/-- Embedding of `strings.Replace(s, pat, rep, 1)` (first occurrence only). -/
def replaceFirstList (pat rep : List Char) : List Char → List Char
  | [] => []
  | ch :: rest =>
    if pat.isPrefixOf (ch :: rest) then rep ++ (ch :: rest).drop pat.length
    else ch :: replaceFirstList pat rep rest

/-- `replaceFirstList` lifted to `String`. -/
def replaceFirstStr (s pat rep : String) : String :=
  ⟨replaceFirstList pat.toList rep.toList s.toList⟩

/-- Embedding of Go `strings.HasSuffix` at the rune level. -/
def goEndsWith (s pat : String) : Bool :=
  pat.data.isSuffixOf s.data

/-- The effect of the favicon writer when it succeeds: which file it
creates and with which encoder. -/
inductive FaviconFile where
  | png (filename : String) (img : List (List Rgba))
  | ico4 (filename : String) (img : List (List Rgba))
  deriving DecidableEq

/-- Embedding of `WriteFavicon`: convert the textual representation to an
icon file.  The error return happens before any file is created. -/
def WriteFavicon (mode : Mode) (text : List Char) (filename : String) (asOther : Bool) :
    Except String FaviconFile :=
  if mode ≠ Mode.modeGray4 then
    Except.error "saving .ico files is only implemented for 4-bit grayscale images"
  else
    let m := drawFavicon text
    if asOther && goEndsWith filename ".ico" then
      Except.ok (FaviconFile.png (replaceFirstStr filename ".ico" ".png") m)
    else if !asOther && goEndsWith filename ".png" then
      Except.ok (FaviconFile.png filename m)
    else if asOther && goEndsWith filename ".png" then
      Except.ok (FaviconFile.ico4 (replaceFirstStr filename ".png" ".ico") m)
    else
      Except.ok (FaviconFile.ico4 filename m)

/-- The outcome of `Editor.Save`: either text data written to the file
(after the in-place trimming), or the favicon writer's outcome. -/
inductive SaveResult where
  | text (e : Editor) (data : List Char)
  | favicon (r : Except String FaviconFile)

/-- The written bytes of a text save (empty for the favicon path). -/
def SaveResult.textData : SaveResult → List Char
  | .text _ d => d
  | .favicon _ => []

/-- Embedding of `Editor.Save` (with `stripTrailingSpaces = true` as in the
source): image filenames are handed to `WriteFavicon`; otherwise each line
is right-trimmed, the whole text is right-trimmed of whitespace, no-break
spaces are replaced and a final newline is added. -/
def Editor.Save (e : Editor) (filename : String) (asOther : Bool) : SaveResult :=
  if goEndsWith filename ".ico" || goEndsWith filename ".png" then
    SaveResult.favicon (WriteFavicon e.mode e.stringContents filename asOther)
  else
    let e := trimAllLoop (e.Len.toNat + 1) e 0
    let data := goTrimRightSpace e.stringContents
    let data := replaceNbsp data
    let data := data ++ ['\n']
    SaveResult.text { e with changed := false } data

/-- The per-line loop of `Editor.Load`: write each rune of the line with
`Set`, with a counter starting at 0. -/
def loadLineLoop : Editor → Int → List Char → Int → Editor
  | e, _, [], _ => e
  | e, y, ch :: rest, counter => loadLineLoop (e.Set counter y ch) y rest (counter + 1)

/-- The outer loop of `Editor.Load` over the split lines. -/
def loadLinesLoop : Editor → Int → List (List Char) → Editor
  | e, _, [] => e
  | e, y, dl :: rest => loadLinesLoop (loadLineLoop e y dl 0) (y + 1) rest

/-- Embedding of the non-image path of `Editor.Load`, starting from the raw
bytes read from the file: normalize foreign line endings, clear, split on
newlines and write every rune. -/
def Editor.LoadFromData (e : Editor) (data : List Char) : Editor :=
  let data :=
    if data.contains '\r' then
      (replaceCRLF data).map (fun ch => if ch = '\r' then '\n' else ch)
    else data
  let e := e.Clear
  let e := loadLinesLoop e 0 (splitChar '\n' data)
  { e with changed := false }

/-! ### Specification-side definitions -/

/-- The line map of a dense document whose lines, from index `k` upwards,
are the given list.  Dense documents (every index in `[0, count)` present)
with non-negative indices are exactly the maps `ofLines ls`. -/
def ofLinesFrom : Int → List (List Char) → LineMap
  | _, [] => []
  | k, l :: ls => (k, l) :: ofLinesFrom (k + 1) ls

/-- The line map of a dense document with the given lines at indices
`0, 1, 2, …`. -/
def ofLines (ls : List (List Char)) : LineMap :=
  ofLinesFrom 0 ls

/-- The density invariant as the spec states it: every index in
`[0, length())` maps to a present (possibly empty) line. -/
def lmDense (m : LineMap) : Prop :=
  ∀ y : Int, 0 ≤ y → y < lmLen m → lmContains m y = true

/-- The claim's per-line normalization, following the spec's words:
the maximal run of trailing whitespace is removed from the line. -/
def claimStripLine (l : List Char) : List Char :=
  (l.reverse.dropWhile goIsSpace).reverse

/-- The amended per-line normalization: trailing whitespace is stripped
from a line that contains a non-whitespace rune; a line consisting
entirely of whitespace is left unchanged. -/
def specTrimLine (l : List Char) : List Char :=
  if l.all goIsSpace then l else claimStripLine l

/-- The amended document normalization: each line is normalized by
`specTrimLine`, and trailing whitespace-only lines are dropped from the
end of the document (the file keeps exactly one trailing newline). -/
def specNormalize (ls : List (List Char)) : List (List Char) :=
  ((ls.map specTrimLine).reverse.dropWhile (fun l => l.all goIsSpace)).reverse

/-- The serialized form of a list of lines: each line followed by a
newline (this is what `Editor.String` produces on a dense document). -/
def joinNL (ls : List (List Char)) : List Char :=
  ls.flatMap (fun l => l ++ ['\n'])

/-- The line map produced by loading the given lines starting at index
`y`: empty lines create no entry (`Load` only calls `Set` for actual
runes), non-empty lines are stored at consecutive indices. -/
def ofLinesSparseFrom : Int → List (List Char) → LineMap
  | _, [] => []
  | y, l :: ls =>
    if l.isEmpty then ofLinesSparseFrom (y + 1) ls
    else (y, l) :: ofLinesSparseFrom (y + 1) ls

/-- A document with its trailing empty lines removed: what survives the
trailing-blank trimming loop of `InsertLineBelowAt`/`InsertLineAbove`. -/
def rdropEmpty (xs : List (List Char)) : List (List Char) :=
  (xs.reverse.dropWhile (fun l => l.isEmpty)).reverse

/-! ### Lemmas about the line-map primitives -/

theorem length_ofLinesFrom (k : Int) (ls : List (List Char)) :
    (ofLinesFrom k ls).length = ls.length := by
  induction ls generalizing k with
  | nil => rfl
  | cons l ls ih => simp [ofLinesFrom, ih]

theorem lmLookup_ofLinesFrom (k : Int) (ls : List (List Char)) (j : Int) :
    lmLookup (ofLinesFrom k ls) j =
      if k ≤ j ∧ j < k + ls.length then some (ls.getD (j - k).toNat []) else none := by
  induction ls generalizing k with
  | nil =>
    simp only [ofLinesFrom, lmLookup, List.length_nil, Nat.cast_zero, add_zero]
    rw [if_neg]
    omega
  | cons l ls ih =>
    simp only [ofLinesFrom, lmLookup, List.length_cons]
    by_cases hj : j = k
    · subst hj
      rw [if_pos rfl, if_pos (by push_cast; omega)]
      simp
    · rw [if_neg hj, ih (k + 1)]
      by_cases hc : k + 1 ≤ j ∧ j < k + 1 + ls.length
      · rw [if_pos hc, if_pos (by push_cast at hc ⊢; omega)]
        have hd : (j - k).toNat = (j - (k + 1)).toNat + 1 := by omega
        rw [hd]
        simp
      · rw [if_neg hc, if_neg (by push_cast at hc ⊢; omega)]

theorem lmContains_ofLinesFrom (k : Int) (ls : List (List Char)) (j : Int) :
    lmContains (ofLinesFrom k ls) j = decide (k ≤ j ∧ j < k + ls.length) := by
  rw [lmContains, lmLookup_ofLinesFrom]
  by_cases hc : k ≤ j ∧ j < k + ls.length
  · rw [if_pos hc]; simpa using hc
  · rw [if_neg hc]; simpa using hc

theorem lmInsert_ofLinesFrom_set (k : Int) (ls : List (List Char)) (i : Nat)
    (v : List Char) (h : i < ls.length) :
    lmInsert (ofLinesFrom k ls) (k + i) v = ofLinesFrom k (ls.set i v) := by
  induction ls generalizing k i with
  | nil => simp at h
  | cons l ls ih =>
    cases i with
    | zero => simp [ofLinesFrom, lmInsert]
    | succ n =>
      have h1 : ¬ (k + (n + 1 : Nat) = k) := by push_cast; omega
      have h2 : ¬ (k + (n + 1 : Nat) < k) := by push_cast; omega
      simp only [ofLinesFrom, lmInsert, if_neg h1, if_neg h2, List.set]
      have h3 : (k + (n + 1 : Nat) : Int) = (k + 1) + (n : Nat) := by push_cast; omega
      rw [h3, ih (k + 1) n (by simpa using h)]

theorem lmInsert_ofLinesFrom_append (k : Int) (ls : List (List Char)) (v : List Char) :
    lmInsert (ofLinesFrom k ls) (k + ls.length) v = ofLinesFrom k (ls ++ [v]) := by
  induction ls generalizing k with
  | nil => simp [ofLinesFrom, lmInsert]
  | cons l ls ih =>
    have h1 : ¬ (k + ((l :: ls).length : Nat) = k) := by
      simp only [List.length_cons]; push_cast; omega
    have h2 : ¬ (k + ((l :: ls).length : Nat) < k) := by
      simp only [List.length_cons]; push_cast; omega
    simp only [ofLinesFrom, lmInsert, if_neg h1, if_neg h2, List.cons_append]
    have h3 : (k + ((l :: ls).length : Nat) : Int) = (k + 1) + (ls.length : Nat) := by
      simp only [List.length_cons]; push_cast; omega
    rw [h3, ih (k + 1)]
    rfl

theorem lmErase_of_lookup_none (m : LineMap) (j : Int) (h : lmLookup m j = none) :
    lmErase m j = m := by
  induction m with
  | nil => rfl
  | cons kv m ih =>
    obtain ⟨k, w⟩ := kv
    simp only [lmLookup] at h
    by_cases hj : j = k
    · simp [hj] at h
    · simp only [lmErase, if_neg hj]
      rw [ih (by simpa [hj] using h)]

theorem lmErase_ofLinesFrom_last (k : Int) (ls : List (List Char)) (l : List Char) :
    lmErase (ofLinesFrom k (ls ++ [l])) (k + ls.length) = ofLinesFrom k ls := by
  induction ls generalizing k with
  | nil => simp [ofLinesFrom, lmErase]
  | cons a ls ih =>
    have h1 : ¬ (k + ((a :: ls).length : Nat) = k) := by
      simp only [List.length_cons]; push_cast; omega
    simp only [List.cons_append, ofLinesFrom, lmErase, if_neg h1]
    have h3 : (k + ((a :: ls).length : Nat) : Int) = (k + 1) + (ls.length : Nat) := by
      simp only [List.length_cons]; push_cast; omega
    rw [h3, show (ls.append [l] : List (List Char)) = ls ++ [l] from rfl, ih (k + 1)]

theorem mem_ofLinesFrom (k : Int) (ls : List (List Char)) (i : Nat) (h : i < ls.length) :
    ((k + i : Int), ls.getD i []) ∈ ofLinesFrom k ls := by
  induction ls generalizing k i with
  | nil => simp at h
  | cons l ls ih =>
    cases i with
    | zero => simp [ofLinesFrom]
    | succ n =>
      have h3 : (k + (n + 1 : Nat) : Int) = (k + 1) + (n : Nat) := by push_cast; omega
      simp only [ofLinesFrom, List.getD_cons_succ, List.mem_cons, h3]
      exact Or.inr (ih (k + 1) n (by simpa using h))

theorem key_bound_ofLinesFrom (k : Int) (ls : List (List Char)) :
    ∀ kv ∈ ofLinesFrom k ls, k ≤ kv.1 ∧ kv.1 < k + ls.length := by
  induction ls generalizing k with
  | nil => simp [ofLinesFrom]
  | cons l ls ih =>
    intro kv hkv
    simp only [ofLinesFrom, List.mem_cons] at hkv
    rcases hkv with h | h
    · subst h
      refine ⟨le_refl _, ?_⟩
      simp only [List.length_cons]
      push_cast
      omega
    · have h2 := ih (k + 1) kv h
      simp only [List.length_cons]
      push_cast at h2 ⊢
      omega

theorem le_lmMaxKeyFold (m : LineMap) (acc : Int) : acc ≤ lmMaxKeyFold m acc := by
  induction m generalizing acc with
  | nil => simp [lmMaxKeyFold]
  | cons kv m ih =>
    simp only [lmMaxKeyFold, List.foldl_cons] at ih ⊢
    refine le_trans ?_ (ih _)
    split <;> omega

theorem mem_le_lmMaxKeyFold (m : LineMap) (acc : Int) :
    ∀ kv ∈ m, kv.1 ≤ lmMaxKeyFold m acc := by
  induction m generalizing acc with
  | nil => simp
  | cons kv m ih =>
    intro kv' hm
    simp only [List.mem_cons] at hm
    simp only [lmMaxKeyFold, List.foldl_cons] at ih ⊢
    rcases hm with h | h
    · subst h
      refine le_trans ?_ (le_lmMaxKeyFold m _)
      split <;> omega
    · exact ih _ kv' h

theorem lmMaxKeyFold_cases (m : LineMap) (acc : Int) :
    lmMaxKeyFold m acc = acc ∨ ∃ kv ∈ m, lmMaxKeyFold m acc = kv.1 := by
  induction m generalizing acc with
  | nil => exact Or.inl rfl
  | cons kv m ih =>
    simp only [lmMaxKeyFold, List.foldl_cons] at ih ⊢
    rcases ih (if kv.1 > acc then kv.1 else acc) with h | ⟨kv', hm, h⟩
    · rw [h]
      split
      · exact Or.inr ⟨kv, List.mem_cons_self _ _, rfl⟩
      · exact Or.inl rfl
    · exact Or.inr ⟨kv', List.mem_cons_of_mem _ hm, h⟩

theorem lmMaxKeyFold_ofLines (ls : List (List Char)) (h : ls ≠ []) :
    lmMaxKeyFold (ofLines ls) 0 = (ls.length : Int) - 1 := by
  have hlen : 0 < ls.length := List.length_pos.mpr h
  have hub : lmMaxKeyFold (ofLines ls) 0 ≤ (ls.length : Int) - 1 := by
    rcases lmMaxKeyFold_cases (ofLines ls) 0 with hc | ⟨kv, hm, hc⟩
    · omega
    · have := key_bound_ofLinesFrom 0 ls kv hm
      omega
  have hlb : (ls.length : Int) - 1 ≤ lmMaxKeyFold (ofLines ls) 0 := by
    have hmem := mem_ofLinesFrom 0 ls (ls.length - 1) (by omega)
    have := mem_le_lmMaxKeyFold (ofLines ls) 0 _ hmem
    simp only at this
    omega
  omega

theorem lmLen_ofLines (ls : List (List Char)) (h : ls ≠ []) :
    lmLen (ofLines ls) = ls.length := by
  rw [lmLen, lmMaxKeyFold_ofLines ls h]; omega

theorem lmLen_nil : lmLen [] = 1 := rfl

theorem lmContains_lmInsert_self (m : LineMap) (j : Int) (v : List Char) :
    lmContains (lmInsert m j v) j = true := by
  induction m with
  | nil => simp [lmInsert, lmContains, lmLookup]
  | cons kv m ih =>
    obtain ⟨k, w⟩ := kv
    simp only [lmInsert]
    by_cases h1 : j = k
    · simp [h1, lmContains, lmLookup]
    · rw [if_neg h1]
      by_cases h2 : j < k
      · simp [if_pos h2, lmContains, lmLookup]
      · simpa [if_neg h2, lmContains, lmLookup, h1] using ih

theorem lmInsert_lmInsert_self (m : LineMap) (j : Int) (v w : List Char) :
    lmInsert (lmInsert m j v) j w = lmInsert m j w := by
  induction m with
  | nil => simp [lmInsert]
  | cons kv m ih =>
    obtain ⟨k, u⟩ := kv
    simp only [lmInsert]
    by_cases h1 : j = k
    · simp [lmInsert, h1]
    · rw [if_neg h1]
      by_cases h2 : j < k
      · simp [lmInsert, if_pos h2, if_neg h1, h2]
      · simp only [if_neg h2, lmInsert, if_neg h1, if_neg h2, ih]

theorem lmInsert_append_of_gt (m : LineMap) (j : Int) (v : List Char)
    (h : ∀ kv ∈ m, kv.1 < j) : lmInsert m j v = m ++ [(j, v)] := by
  induction m with
  | nil => rfl
  | cons kv m ih =>
    obtain ⟨k, w⟩ := kv
    have hk := h (k, w) (List.mem_cons_self _ _)
    simp only at hk
    simp only [lmInsert, if_neg (by omega : ¬ j = k), if_neg (by omega : ¬ j < k),
      List.cons_append, List.cons.injEq, true_and]
    exact ih (fun kv hm => h kv (List.mem_cons_of_mem _ hm))

/-! ### Lemmas about the consistency and trimming loops -/

theorem exists_concat_of_ne_nil {α : Type} (l : List α) (h : l ≠ []) :
    ∃ l' a, l = l' ++ [a] := by
  induction l using List.reverseRecOn with
  | nil => simp at h
  | append_singleton l' a ih => exact ⟨l', a, rfl⟩

theorem makeConsistentLoop_succ (fuel : Nat) (m : LineMap) (ch : Bool) (i : Int) :
    makeConsistentLoop (fuel + 1) m ch i =
      if i < (lmSize m : Int) then
        (if lmContains m i then makeConsistentLoop fuel m ch (i + 1)
         else makeConsistentLoop fuel (lmInsert m i []) true (i + 1))
      else (m, ch) := by
  simp only [makeConsistentLoop]

theorem makeConsistentLoop_covered (m : LineMap)
    (hcov : ∀ j : Int, 0 ≤ j → j < (lmSize m : Int) → lmContains m j = true) :
    ∀ (fuel : Nat) (ch : Bool) (i : Int), 0 ≤ i → makeConsistentLoop fuel m ch i = (m, ch) := by
  intro fuel
  induction fuel with
  | zero => intro ch i hi; rfl
  | succ fuel ih =>
    intro ch i hi
    simp only [makeConsistentLoop]
    by_cases hlt : i < (lmSize m : Int)
    · rw [if_pos hlt, if_pos (hcov i hi hlt)]
      exact ih ch (i + 1) (by omega)
    · rw [if_neg hlt]

theorem covered_ofLines (ls : List (List Char)) :
    ∀ j : Int, 0 ≤ j → j < (lmSize (ofLines ls) : Int) → lmContains (ofLines ls) j = true := by
  intro j h0 hj
  rw [lmSize, ofLines, length_ofLinesFrom] at hj
  rw [ofLines, lmContains_ofLinesFrom]
  simp only [decide_eq_true_eq]
  omega

theorem mcLines_covered (m : LineMap) (ch : Bool)
    (hcov : ∀ j : Int, 0 ≤ j → j < (lmSize m : Int) → lmContains m j = true) :
    mcLines m ch = (m, ch) :=
  makeConsistentLoop_covered m hcov (mcFuel m) ch 0 le_rfl

theorem mcLines_ofLines (ls : List (List Char)) (ch : Bool) :
    mcLines (ofLines ls) ch = (ofLines ls, ch) :=
  mcLines_covered (ofLines ls) ch (covered_ofLines ls)

theorem MakeConsistent_ofLines (e : Editor) (ls : List (List Char)) (h : e.lines = ofLines ls) :
    e.MakeConsistent = e := by
  unfold Editor.MakeConsistent
  rw [h, mcLines_ofLines]
  dsimp only
  rw [← h]

theorem lmInsert_shifted_zero (ls : List (List Char)) (hne : ls ≠ []) :
    lmInsert (ofLinesFrom 1 ls) 0 [] = ofLines ([] :: ls) := by
  cases ls with
  | nil => exact absurd rfl hne
  | cons l ls' =>
    simp only [ofLinesFrom, ofLines, lmInsert]
    norm_num

theorem mcLines_shifted (ls : List (List Char)) (hne : ls ≠ []) (ch : Bool) :
    mcLines (ofLinesFrom 1 ls) ch = (ofLines ([] :: ls), true) := by
  have hlen : 0 < ls.length := List.length_pos.mpr hne
  rw [mcLines]
  have hf : mcFuel (ofLinesFrom 1 ls) =
      ((lmMaxKeyFold (ofLinesFrom 1 ls) 0).toNat + lmSize (ofLinesFrom 1 ls) + 1) + 1 := by
    rw [mcFuel]
  rw [hf, makeConsistentLoop_succ]
  rw [if_pos (by rw [lmSize, length_ofLinesFrom]; exact_mod_cast hlen)]
  rw [if_neg (by rw [lmContains_ofLinesFrom]; simp)]
  rw [lmInsert_shifted_zero ls hne]
  exact makeConsistentLoop_covered _ (covered_ofLines ([] :: ls)) _ true (0 + 1) (by omega)

theorem skipTrailingLoop_dense (fuel : Nat) :
    ∀ (ls : List (List Char)) (i y : Int), ls ≠ [] → 0 ≤ y → (ls.length : Int) - 1 ≤ i →
    ∃ ls', ls' ≠ [] ∧ skipTrailingLoop fuel (ofLines ls) i y = ofLines ls' := by
  induction fuel with
  | zero => intro ls i y h1 h2 h3; exact ⟨ls, h1, rfl⟩
  | succ fuel ih =>
    intro ls i y h1 h2 h3
    have hlen : 0 < ls.length := List.length_pos.mpr h1
    simp only [skipTrailingLoop]
    by_cases hyi : y < i
    · rw [if_pos hyi]
      by_cases hge : (ls.length : Int) ≤ i
      · -- the index is past the data: lookup is none, erase is a no-op
        have hlk : lmLookup (ofLines ls) i = none := by
          rw [ofLines, lmLookup_ofLinesFrom, if_neg (by omega)]
        rw [hlk]
        simp only [Option.getD_none, List.length_nil, if_pos rfl]
        rw [lmErase_of_lookup_none _ _ hlk]
        exact ih ls (i - 1) y h1 h2 (by omega)
      · -- the index is the last line
        have hi : i = (ls.length : Int) - 1 := by omega
        obtain ⟨A, a, rfl⟩ := exists_concat_of_ne_nil ls h1
        have hi' : i = (A.length : Int) := by
          simp only [List.length_append, List.length_singleton] at hi
          push_cast at hi
          omega
        have hlk : lmLookup (ofLines (A ++ [a])) i = some a := by
          have hcond : (0 : Int) ≤ i ∧ i < 0 + ((A ++ [a]).length : Int) := by
            simp only [List.length_append, List.length_singleton]
            push_cast
            omega
          rw [ofLines, lmLookup_ofLinesFrom, if_pos hcond]
          have hidx : (i - 0).toNat = A.length := by omega
          rw [hidx]
          simp
        rw [hlk]
        simp only [Option.getD_some]
        by_cases hempty : a.length = 0
        · rw [if_pos hempty]
          have hANe : A ≠ [] := by
            intro hA
            subst hA
            simp only [List.length_nil, Nat.cast_zero] at hi'
            omega
          have hers : lmErase (ofLines (A ++ [a])) i = ofLines A := by
            have h5 := lmErase_ofLinesFrom_last 0 A a
            rw [ofLines, hi']
            simpa using h5
          rw [hers]
          exact ih A (i - 1) y hANe h2 (by omega)
        · rw [if_neg hempty]
          exact ⟨A ++ [a], h1, rfl⟩
    · rw [if_neg hyi]
      exact ⟨ls, h1, rfl⟩

/-! ### Lemmas about the map rebuild and the line-shift loop -/

theorem shiftInsertAt_cons (kv : Int × List Char) (m : LineMap) (p : Int) :
    shiftInsertAt (kv :: m) p =
      (if kv.1 < p then [kv]
       else if kv.1 = p then [kv, (kv.1 + 1, [])]
       else [(kv.1 + 1, kv.2)]) ++ shiftInsertAt m p := by
  simp [shiftInsertAt]

theorem shiftInsertAt_lt (k : Int) (ls : List (List Char)) (p : Int) (hp : p < k) :
    shiftInsertAt (ofLinesFrom k ls) p = ofLinesFrom (k + 1) ls := by
  induction ls generalizing k with
  | nil => rfl
  | cons l ls ih =>
    rw [ofLinesFrom, shiftInsertAt_cons]
    rw [if_neg (by simp only; omega), if_neg (by simp only; omega)]
    simp only [List.singleton_append, ofLinesFrom]
    rw [ih (k + 1) (by omega)]

theorem shiftInsertAt_ge (k : Int) (ls : List (List Char)) (p : Int)
    (hp : k + ls.length ≤ p) :
    shiftInsertAt (ofLinesFrom k ls) p = ofLinesFrom k ls := by
  induction ls generalizing k with
  | nil => rfl
  | cons l ls ih =>
    rw [ofLinesFrom, shiftInsertAt_cons]
    have hlt : k < p := by
      simp only [List.length_cons] at hp
      push_cast at hp
      omega
    rw [if_pos (by simpa only using hlt)]
    simp only [List.singleton_append, ofLinesFrom]
    rw [ih (k + 1) (by simp only [List.length_cons] at hp; push_cast at hp ⊢; omega)]

theorem shiftInsertAt_mid (k : Int) (ls : List (List Char)) (i : Nat) (h : i < ls.length) :
    shiftInsertAt (ofLinesFrom k ls) (k + i) =
      ofLinesFrom k (ls.take (i + 1) ++ [[]] ++ ls.drop (i + 1)) := by
  induction ls generalizing k i with
  | nil => simp at h
  | cons l ls ih =>
    cases i with
    | zero =>
      rw [ofLinesFrom, shiftInsertAt_cons]
      rw [if_neg (by simp only [Nat.cast_zero, add_zero]; omega),
        if_pos (by simp only [Nat.cast_zero, add_zero])]
      simp only [Nat.cast_zero, add_zero]
      rw [shiftInsertAt_lt (k + 1) ls k (by omega)]
      simp [ofLinesFrom]
    | succ n =>
      rw [ofLinesFrom, shiftInsertAt_cons]
      rw [if_pos (by simp only; push_cast; omega)]
      have h3 : (k + ((n + 1 : Nat)) : Int) = (k + 1) + (n : Nat) := by push_cast; omega
      rw [h3, ih (k + 1) n (by simpa using h)]
      simp only [List.singleton_append, List.take_succ_cons, List.drop_succ_cons,
        List.cons_append, ofLinesFrom, List.nil_append]
      rfl

theorem shiftUpLoop_ofLines (fuel : Nat) :
    ∀ (ls : List (List Char)) (i : Int), ls ≠ [] → 0 ≤ i → i ≤ (ls.length : Int) - 1 →
      ((ls.length : Int) - 1 - i).toNat < fuel →
      shiftUpLoop fuel (ofLines ls) i ((ls.length : Int) - 1) =
        ofLines (ls.take i.toNat ++ ls.drop (i.toNat + 1) ++ [ls.getD (ls.length - 1) []]) := by
  induction fuel with
  | zero => intro ls i h1 h2 h3 h4; omega
  | succ fuel ih =>
    intro ls i h1 h2 h3 h4
    obtain ⟨iN, rfl⟩ : ∃ iN : Nat, i = (iN : Int) := ⟨i.toNat, by omega⟩
    simp only [Int.toNat_natCast]
    have hlen : 0 < ls.length := List.length_pos.mpr h1
    simp only [shiftUpLoop]
    by_cases hi : (iN : Int) ≤ (ls.length : Int) - 1 - 1
    · rw [if_pos hi]
      have hlk : lmLookup (ofLines ls) ((iN : Int) + 1) = some (ls.getD (iN + 1) []) := by
        rw [ofLines, lmLookup_ofLinesFrom, if_pos (by omega)]
        have he : ((iN : Int) + 1 - 0).toNat = iN + 1 := by omega
        rw [he]
      rw [hlk]
      simp only [Option.getD_some]
      set v := ls.getD (iN + 1) [] with hv
      have hins : lmInsert (ofLines ls) (iN : Int) v = ofLines (ls.set iN v) := by
        have h5 := lmInsert_ofLinesFrom_set 0 ls iN v (by omega)
        rw [zero_add] at h5
        exact h5
      rw [hins]
      have hlen' : ((ls.set iN v).length : Int) = (ls.length : Int) := by simp
      have hmain := ih (ls.set iN v) ((iN : Int) + 1)
        (by simp only [ne_eq, List.set_eq_nil_iff]; exact h1)
        (by omega) (by rw [hlen']; omega) (by rw [hlen']; omega)
      rw [hlen'] at hmain
      have h6 : ((iN : Int) + 1).toNat = iN + 1 := by omega
      rw [h6] at hmain
      rw [hmain]
      congr 1
      have hit : iN < ls.length := by omega
      have hset : ls.set iN v = ls.take iN ++ v :: ls.drop (iN + 1) :=
        List.set_eq_take_cons_drop v hit
      have hl1 : (ls.take iN).length = iN := by rw [List.length_take]; omega
      have htk : (ls.set iN v).take (iN + 1) = ls.take iN ++ [v] := by
        rw [hset, List.take_append_eq_append_take, List.take_take, hl1]
        have e1 : min (iN + 1) iN = iN := by omega
        have e2 : iN + 1 - iN = 1 := by omega
        rw [e1, e2]
        rfl
      have hdp : (ls.set iN v).drop (iN + 1 + 1) = ls.drop (iN + 2) := by
        rw [hset, List.drop_append_eq_append_drop,
          List.drop_eq_nil_of_le (by rw [hl1]; omega), hl1]
        have e1 : iN + 1 + 1 - iN = 2 := by omega
        rw [e1]
        simp only [List.nil_append]
        show (ls.drop (iN + 1)).drop 1 = ls.drop (iN + 2)
        rw [List.drop_drop]
      have hlast : (ls.set iN v).getD ((ls.set iN v).length - 1) [] =
          ls.getD (ls.length - 1) [] := by
        rw [List.length_set]
        rw [List.getD_eq_getElem _ _ (by simp only [List.length_set]; omega),
          List.getD_eq_getElem _ _ (by omega)]
        exact List.getElem_set_ne (by omega) (by simp only [List.length_set]; omega)
      rw [List.length_set] at hmain ⊢
      rw [htk, hdp]
      have hlast2 : (ls.set iN v).getD (ls.length - 1) [] = ls.getD (ls.length - 1) [] := by
        rw [List.getD_eq_getElem _ _ (by simp only [List.length_set]; omega),
          List.getD_eq_getElem _ _ (by omega)]
        exact List.getElem_set_ne (by omega) (by simp only [List.length_set]; omega)
      rw [hlast2]
      have hdrop1 : ls.drop (iN + 1) = v :: ls.drop (iN + 2) := by
        rw [hv, List.getD_eq_getElem _ _ (by omega)]
        exact List.drop_eq_getElem_cons (by omega)
      rw [hdrop1]
      simp
    · rw [if_neg hi]
      have hieq : (iN : Int) = (ls.length : Int) - 1 := by omega
      obtain ⟨A, a, rfl⟩ := exists_concat_of_ne_nil ls h1
      have hiA : iN = A.length := by
        simp only [List.length_append, List.length_singleton] at hieq
        push_cast at hieq
        omega
      rw [hiA]
      have ht1 : (A ++ [a]).take A.length = A := by
        rw [List.take_append_eq_append_take, List.take_of_length_le le_rfl]
        simp
      have ht2 : (A ++ [a]).drop (A.length + 1) = [] := by
        rw [List.drop_eq_nil_of_le]
        simp
      have ht3 : (A ++ [a]).getD ((A ++ [a]).length - 1) [] = a := by
        rw [List.getD_eq_getElem _ _ (by simp)]
        simp
      rw [ht1, ht2, ht3]
      simp


/-! ### The line-structure mutations on dense documents -/

theorem Editor.Len_eq (e : Editor) : e.Len = lmLen e.lines := rfl

theorem lmSize_ofLines (ls : List (List Char)) : lmSize (ofLines ls) = ls.length := by
  rw [lmSize, ofLines, length_ofLinesFrom]

theorem lmDense_ofLines (ls : List (List Char)) (hne : ls ≠ []) : lmDense (ofLines ls) := by
  intro y h0 hy
  rw [lmLen_ofLines ls hne] at hy
  rw [ofLines, lmContains_ofLinesFrom]
  simp only [decide_eq_true_eq]
  omega

theorem skipTrailingLoop_stop (fuel : Nat) (m : LineMap) (i y : Int) (h : ¬ y < i) :
    skipTrailingLoop fuel m i y = m := by
  cases fuel with
  | zero => rfl
  | succ fuel => simp only [skipTrailingLoop, if_neg h]

/-- `InsertLineBelowAt` on a dense document with the given line being the
last line: an empty line is appended, nothing else changes. -/
theorem insertLineBelowAtLines_last (ls : List (List Char)) (ch : Bool) (y : Int)
    (hne : ls ≠ []) (hy : y = (ls.length : Int) - 1) :
    insertLineBelowAtLines (ofLines ls) ch y = (ofLines (ls ++ [[]]), true) := by
  unfold insertLineBelowAtLines
  rw [mcLines_ofLines]
  dsimp only
  rw [if_pos (by rw [lmSize_ofLines]; omega)]
  have h5 := lmInsert_ofLinesFrom_append 0 ls []
  rw [zero_add] at h5
  rw [show y + 1 = ((ls.length : Nat) : Int) from by omega, ofLines, h5]
  rfl

/-- `InsertLineBelowAt` on a dense document yields a dense document. -/
theorem insertLineBelowAtLines_dense (ls : List (List Char)) (ch : Bool) (y : Int)
    (hne : ls ≠ []) (hy : 0 ≤ y) :
    ∃ ls', ls' ≠ [] ∧ (insertLineBelowAtLines (ofLines ls) ch y).1 = ofLines ls' := by
  by_cases hlast : y = (ls.length : Int) - 1
  · rw [insertLineBelowAtLines_last ls ch y hne hlast]
    exact ⟨ls ++ [[]], by simp, rfl⟩
  · unfold insertLineBelowAtLines
    rw [mcLines_ofLines]
    dsimp only
    rw [if_neg (by rw [lmSize_ofLines]; omega)]
    by_cases hge : (ls.length : Int) ≤ y
    · -- the given line is past the document: the rebuild changes nothing
      rw [ofLines, shiftInsertAt_ge 0 ls y (by omega)]
      rw [show ofLinesFrom 0 ls = ofLines ls from rfl, mcLines_ofLines]
      dsimp only
      rw [skipTrailingLoop_stop _ _ _ _ (by rw [lmSize_ofLines]; omega), mcLines_ofLines]
      exact ⟨ls, hne, rfl⟩
    · -- the blank line is inserted inside the document
      obtain ⟨yN, rfl⟩ : ∃ yN : Nat, y = (yN : Int) := ⟨y.toNat, by omega⟩
      have hyN : yN < ls.length := by omega
      have hmid := shiftInsertAt_mid 0 ls yN hyN
      rw [zero_add] at hmid
      rw [ofLines, hmid]
      set ls1 := ls.take (yN + 1) ++ [[]] ++ ls.drop (yN + 1) with hls1
      have hlen1 : ls1.length = ls.length + 1 := by
        rw [hls1]
        simp only [List.length_append, List.length_take, List.length_drop,
          List.length_singleton]
        omega
      have hne1 : ls1 ≠ [] := by
        intro hc
        rw [hc] at hlen1
        simp at hlen1
      rw [show ofLinesFrom 0 ls1 = ofLines ls1 from rfl, mcLines_ofLines]
      dsimp only
      obtain ⟨ls', hne', heq⟩ := skipTrailingLoop_dense
        (((lmSize (ofLines ls1) : Int) - yN).toNat + 1) ls1 (lmSize (ofLines ls1) : Int)
        yN hne1 (by omega) (by rw [lmSize_ofLines]; omega)
      rw [heq, mcLines_ofLines]
      exact ⟨ls', hne', rfl⟩

/-- `InsertLineAbove` (with `y` the cursor data row) on a dense document
yields a dense document. -/
theorem insertLineAboveLines_dense (ls : List (List Char)) (ch : Bool) (y : Int)
    (hne : ls ≠ []) (hy : 0 ≤ y) :
    ∃ ls', ls' ≠ [] ∧ (insertLineAboveLines (ofLines ls) ch y).1 = ofLines ls' := by
  unfold insertLineAboveLines
  by_cases h0 : y = 0
  · -- inserting above line 0: every line shifts down and `MakeConsistent`
    -- creates the blank line 0
    rw [h0, ofLines, shiftInsertAt_lt 0 ls (0 - 1) (by omega), zero_add]
    rw [mcLines_shifted ls hne]
    dsimp only
    obtain ⟨ls', hne', heq⟩ := skipTrailingLoop_dense
      (((lmSize (ofLines ([] :: ls)) : Int) - 0).toNat + 1) ([] :: ls)
      (lmSize (ofLines ([] :: ls)) : Int) 0 (by simp) (by omega)
      (by rw [lmSize_ofLines]; simp only [List.length_cons]; omega)
    rw [heq, mcLines_ofLines]
    exact ⟨ls', hne', rfl⟩
  · have h1 : 1 ≤ y := by omega
    by_cases hge : (ls.length : Int) ≤ y - 1
    · -- the row above the cursor is past the document: nothing changes
      rw [ofLines, shiftInsertAt_ge 0 ls (y - 1) (by omega)]
      rw [show ofLinesFrom 0 ls = ofLines ls from rfl, mcLines_ofLines]
      dsimp only
      rw [skipTrailingLoop_stop _ _ _ _ (by rw [lmSize_ofLines]; omega), mcLines_ofLines]
      exact ⟨ls, hne, rfl⟩
    · -- the blank line is inserted at the cursor row
      obtain ⟨pN, hp⟩ : ∃ pN : Nat, y - 1 = (pN : Int) := ⟨(y - 1).toNat, by omega⟩
      have hpN : pN < ls.length := by omega
      have hmid := shiftInsertAt_mid 0 ls pN hpN
      rw [zero_add] at hmid
      rw [ofLines, hp, hmid]
      set ls1 := ls.take (pN + 1) ++ [[]] ++ ls.drop (pN + 1) with hls1
      have hlen1 : ls1.length = ls.length + 1 := by
        rw [hls1]
        simp only [List.length_append, List.length_take, List.length_drop,
          List.length_singleton]
        omega
      have hne1 : ls1 ≠ [] := by
        intro hc
        rw [hc] at hlen1
        simp at hlen1
      rw [show ofLinesFrom 0 ls1 = ofLines ls1 from rfl, mcLines_ofLines]
      dsimp only
      obtain ⟨ls', hne', heq⟩ := skipTrailingLoop_dense
        (((lmSize (ofLines ls1) : Int) - y).toNat + 1) ls1 (lmSize (ofLines ls1) : Int)
        y hne1 (by omega) (by rw [lmSize_ofLines]; omega)
      rw [heq, mcLines_ofLines]
      exact ⟨ls', hne', rfl⟩

/-- `DeleteLine` on a dense document yields a dense document, except when it
deletes the only line. -/
theorem deleteLineLines_dense (ls : List (List Char)) (ch : Bool) (n : Int)
    (hne : ls ≠ []) (hn : 0 ≤ n) (hnc : ¬ (ls.length = 1 ∧ n = 0)) :
    ∃ ls', ls' ≠ [] ∧ (deleteLineLines (ofLines ls) ch n).1 = ofLines ls' := by
  have hlen0 : 0 < ls.length := List.length_pos.mpr hne
  have hLen : lmLen (ofLines ls) = ls.length := lmLen_ofLines ls hne
  unfold deleteLineLines
  by_cases hbr : n ≥ lmLen (ofLines ls) - 1
  · rw [if_pos hbr]
    by_cases hn2 : n = (ls.length : Int) - 1
    · -- delete the last line; the document keeps at least one line
      have hlen2 : 2 ≤ ls.length := by
        by_contra hlt
        exact hnc ⟨by omega, by omega⟩
      obtain ⟨A, a, rfl⟩ := exists_concat_of_ne_nil ls hne
      have hA : A ≠ [] := by
        intro hc
        subst hc
        simp at hlen2
      have hnA : n = ((A.length : Nat) : Int) := by
        simp only [List.length_append, List.length_singleton] at hn2
        push_cast at hn2 ⊢
        omega
      have h5 := lmErase_ofLinesFrom_last 0 A a
      rw [zero_add] at h5
      rw [hnA, ofLines, h5]
      exact ⟨A, hA, rfl⟩
    · -- the index is past the last line: the erase is a no-op
      have hnone : lmLookup (ofLines ls) n = none := by
        rw [ofLines, lmLookup_ofLinesFrom, if_neg (by rw [hLen] at hbr; omega)]
      rw [lmErase_of_lookup_none _ _ hnone]
      exact ⟨ls, hne, rfl⟩
  · rw [if_neg hbr]
    rw [hLen] at hbr
    have hlen2 : (2 : Int) ≤ ls.length := by omega
    have hmax : lmMaxKeyFold (ofLines ls) 0 = (ls.length : Int) - 1 :=
      lmMaxKeyFold_ofLines ls hne
    have hfound : (ofLines ls).any (fun kv => decide (kv.1 > 0)) = true := by
      rw [List.any_eq_true]
      refine ⟨((0 + (1 : Nat) : Int), ls.getD 1 []), mem_ofLinesFrom 0 ls 1 (by omega), ?_⟩
      norm_num
    have hcont : lmContains (ofLines ls) ((ls.length : Int) - 1) = true := by
      rw [ofLines, lmContains_ofLinesFrom]
      simp only [decide_eq_true_eq]
      omega
    dsimp only
    rw [hfound, hmax]
    rw [if_neg (by simp)]
    rw [if_neg (by rw [hcont]; simp)]
    have hshift := shiftUpLoop_ofLines (((ls.length : Int) - 1 - n).toNat + 1) ls n hne hn
      (by omega) (by omega)
    rw [hshift]
    set C := ls.take n.toNat ++ ls.drop (n.toNat + 1) with hC
    have hClen : C.length = ls.length - 1 := by
      rw [hC]
      simp only [List.length_append, List.length_take, List.length_drop]
      omega
    have hCne : C ≠ [] := by
      intro hc
      rw [hc] at hClen
      simp at hClen
      omega
    have h5 := lmErase_ofLinesFrom_last 0 C (ls.getD (ls.length - 1) [])
    rw [zero_add] at h5
    have hCl : ((ls.length : Int) - 1) = ((C.length : Nat) : Int) := by
      rw [hClen]
      omega
    rw [hCl, ofLines, h5]
    rw [show ofLinesFrom 0 C = ofLines C from rfl, mcLines_ofLines]
    exact ⟨C, hCne, rfl⟩

/-! ### Helper lemmas for the claims about `Len`, `Get` and `DataX` -/

theorem lmContains_of_mem (m : LineMap) (kv : Int × List Char) (h : kv ∈ m) :
    lmContains m kv.1 = true := by
  induction m with
  | nil => simp at h
  | cons kv' m ih =>
    obtain ⟨k', v'⟩ := kv'
    rcases List.mem_cons.mp h with h1 | h1
    · subst h1
      simp [lmContains, lmLookup]
    · by_cases he : kv.1 = k'
      · simp [lmContains, lmLookup, he]
      · simpa [lmContains, lmLookup, he] using ih h1

theorem dataXLoop_within (l : List Char) :
    ∀ (sx cnt : Int), cnt ≤ sx → sx < cnt + l.length → dataXLoop l sx cnt = (sx, false) := by
  induction l with
  | nil =>
    intro sx cnt h1 h2
    exfalso
    simp only [List.length_nil, Nat.cast_zero, add_zero] at h2
    omega
  | cons c rest ih =>
    intro sx cnt h1 h2
    simp only [dataXLoop]
    by_cases he : cnt = sx
    · rw [if_pos he, he]
    · rw [if_neg he]
      exact ih sx (cnt + 1) (by omega)
        (by simp only [List.length_cons] at h2; push_cast at h2 ⊢; omega)

theorem dataXLoop_past (l : List Char) :
    ∀ (sx cnt : Int), cnt + l.length ≤ sx → dataXLoop l sx cnt = (cnt + l.length, true) := by
  induction l with
  | nil => intro sx cnt h; simp [dataXLoop]
  | cons c rest ih =>
    intro sx cnt h
    simp only [List.length_cons] at h ⊢
    push_cast at h ⊢
    simp only [dataXLoop]
    rw [if_neg (by omega)]
    rw [ih sx (cnt + 1) (by omega)]
    congr 1
    omega

/-! ### C1: density after the line-structure mutations -/

/-- C1 (amended): starting from a dense document (`ofLines ls` with
`ls ≠ []` — exactly the maps whose indices `0 … count-1` are all present),
the density invariant holds after `InsertLineBelowAt` (for any target row
`y ≥ 0`), after `InsertLineAbove` (cursor row `≥ 0`), and after
`DeleteLine n` for `n ≥ 0` — except in the excluded case where `DeleteLine`
removes the only line of a one-line document, which leaves an empty map
while `Len()` still reports 1. -/
theorem c1_density_after_mutations (e : Editor) (ls : List (List Char)) (y n : Int)
    (hl : e.lines = ofLines ls) (hne : ls ≠ []) (hy : 0 ≤ y) (hdy : 0 ≤ e.DataY)
    (hn : 0 ≤ n) (hnc : ¬ (ls.length = 1 ∧ n = 0)) :
    lmDense (e.InsertLineBelowAt y).lines ∧
    lmDense e.InsertLineAbove.lines ∧
    lmDense (e.DeleteLine n).lines := by
  refine ⟨?_, ?_, ?_⟩
  · obtain ⟨ls', hne', heq⟩ := insertLineBelowAtLines_dense ls e.changed y hne hy
    show lmDense (insertLineBelowAtLines e.lines e.changed y).1
    rw [hl, heq]
    exact lmDense_ofLines ls' hne'
  · obtain ⟨ls', hne', heq⟩ := insertLineAboveLines_dense ls e.changed e.DataY hne hdy
    show lmDense (insertLineAboveLines e.lines e.changed e.DataY).1
    rw [hl, heq]
    exact lmDense_ofLines ls' hne'
  · obtain ⟨ls', hne', heq⟩ := deleteLineLines_dense ls e.changed n hne hn hnc
    show lmDense (deleteLineLines e.lines e.changed n).1
    rw [hl, heq]
    exact lmDense_ofLines ls' hne'

/-- C1 counterexample: the claim as stated fails on `DeleteLine 0` applied
to the dense one-line document `["a"]`: the map becomes empty but `Len()`
still reports 1, so index 0 is in `[0, Len())` yet has no entry. -/
theorem c1_density_counterexample :
    lmDense (mkEditor (ofLines [['a']]) ⟨0, 0, 0, 0⟩ false 99).lines ∧
    ¬ lmDense ((mkEditor (ofLines [['a']]) ⟨0, 0, 0, 0⟩ false 99).DeleteLine 0).lines := by
  constructor
  · intro y h0 hy
    have h1 : lmLen (mkEditor (ofLines [['a']]) ⟨0, 0, 0, 0⟩ false 99).lines = 1 := rfl
    rw [h1] at hy
    have hy0 : y = 0 := by omega
    subst hy0
    rfl
  · intro hd
    have h1 :
        lmLen ((mkEditor (ofLines [['a']]) ⟨0, 0, 0, 0⟩ false 99).DeleteLine 0).lines = 1 :=
      rfl
    have h2 := hd 0 le_rfl (by rw [h1]; omega)
    have h3 :
        lmContains ((mkEditor (ofLines [['a']]) ⟨0, 0, 0, 0⟩ false 99).DeleteLine 0).lines 0
          = false := rfl
    rw [h2] at h3
    exact Bool.noConfusion h3

/-- C1 witness: the amended theorem applied to the dense document
`["a", "b"]` with `y = 0`, `n = 0`. -/
theorem c1_density_witness :
    lmDense ((mkEditor (ofLines [['a'], ['b']]) ⟨0, 0, 0, 0⟩ false 99).InsertLineBelowAt 0).lines ∧
    lmDense (mkEditor (ofLines [['a'], ['b']]) ⟨0, 0, 0, 0⟩ false 99).InsertLineAbove.lines ∧
    lmDense ((mkEditor (ofLines [['a'], ['b']]) ⟨0, 0, 0, 0⟩ false 99).DeleteLine 0).lines :=
  c1_density_after_mutations (mkEditor (ofLines [['a'], ['b']]) ⟨0, 0, 0, 0⟩ false 99)
    [['a'], ['b']] 0 0 rfl (by decide) le_rfl (by decide) le_rfl (by decide)

/-! ### C3: the two concrete `Delete` scenarios -/

/-- C3 (confirmed): on `["ab","cd"]` with the cursor at the end of line 0
(screen column 2), `Delete` joins the lines into `["abcd"]` of length 1; on
`["abc"]` with the cursor at column 3 (past the end) and no following line,
`Delete` leaves the line unchanged and removes no line. -/
theorem c3_delete_scenarios :
    ((mkEditor (ofLines [['a', 'b'], ['c', 'd']]) ⟨2, 0, 0, 0⟩ false 99).Delete).lines
        = ofLines [['a', 'b', 'c', 'd']] ∧
    ((mkEditor (ofLines [['a', 'b'], ['c', 'd']]) ⟨2, 0, 0, 0⟩ false 99).Delete).Len = 1 ∧
    ((mkEditor (ofLines [['a', 'b', 'c']]) ⟨3, 0, 0, 0⟩ false 99).Delete).lines
        = ofLines [['a', 'b', 'c']] ∧
    ((mkEditor (ofLines [['a', 'b', 'c']]) ⟨3, 0, 0, 0⟩ false 99).Delete).Len = 1 := by
  refine ⟨?_, ?_, ?_, ?_⟩ <;> decide

/-! ### C6: the coordinate mapping `DataX` on tab-free rows -/

/-- C6 (confirmed): in text mode, on a row without tab characters, `DataX`
is the identity on screen columns within the content, and signals the
past-end-of-data condition together with the line's rune count when the
screen column is at or past the rune length. -/
theorem c6_datax_no_tabs (e : Editor) (hdm : e.drawMode = false)
    (ht : ¬ '\t' ∈ (lmLookup e.lines e.DataY).getD []) (hsx : 0 ≤ e.pos.sx) :
    (e.pos.sx < (((lmLookup e.lines e.DataY).getD []).length : Int) →
      e.DataX = (e.pos.sx, false)) ∧
    ((((lmLookup e.lines e.DataY).getD []).length : Int) ≤ e.pos.sx →
      e.DataX = ((((lmLookup e.lines e.DataY).getD []).length : Int), true)) := by
  have hY : e.DataY = e.pos.offset + e.pos.sy := by
    rw [Editor.DataY, hdm]
    simp
  rw [hY]
  constructor
  · intro hlt
    simp only [Editor.DataX, hdm, Bool.false_eq_true, if_false]
    exact dataXLoop_within _ e.pos.sx 0 hsx (by omega)
  · intro hge
    simp only [Editor.DataX, hdm, Bool.false_eq_true, if_false]
    have h5 := dataXLoop_past ((lmLookup e.lines (e.pos.offset + e.pos.sy)).getD [])
      e.pos.sx 0 (by omega)
    rw [h5]
    congr 1
    omega

/-- C6 witness: the theorem applied to a concrete tab-free editor (line
`"hi"`, screen column 1); the lookup, length and cursor terms are stated
in evaluated form. -/
theorem c6_datax_witness :
    ((1 : Int) < 2 →
      (mkEditor (ofLines [['h', 'i']]) ⟨1, 0, 0, 0⟩ false 99).DataX = (1, false)) ∧
    ((2 : Int) ≤ 1 →
      (mkEditor (ofLines [['h', 'i']]) ⟨1, 0, 0, 0⟩ false 99).DataX = (2, true)) :=
  c6_datax_no_tabs (mkEditor (ofLines [['h', 'i']]) ⟨1, 0, 0, 0⟩ false 99) rfl
    (by decide) (by decide)

/-! ### C7: what `Len` returns -/

/-- C7 (amended): for a document whose present indices are all
non-negative, `Len` returns the highest present index plus one when the
map is nonempty; for a document with no lines it returns 1 (not 0): the
fold starts its maximum at 0 and adds one. -/
theorem c7_len_amended (e : Editor) (hpos : ∀ kv ∈ e.lines, 0 ≤ kv.1) :
    (e.lines = [] → e.Len = 1) ∧
    (e.lines ≠ [] →
      lmContains e.lines (e.Len - 1) = true ∧ ∀ kv ∈ e.lines, kv.1 ≤ e.Len - 1) := by
  have hL : e.Len - 1 = lmMaxKeyFold e.lines 0 := by
    rw [Editor.Len_eq, lmLen]
    ring
  constructor
  · intro h
    rw [Editor.Len_eq, h]
    rfl
  · intro hne
    constructor
    · rw [hL]
      rcases lmMaxKeyFold_cases e.lines 0 with hc | ⟨kv, hm, hc⟩
      · -- the fold stayed at 0: some present key must equal 0
        obtain ⟨kv0, hm0⟩ := List.exists_mem_of_ne_nil e.lines hne
        have h1 := mem_le_lmMaxKeyFold e.lines 0 kv0 hm0
        have h2 := hpos kv0 hm0
        have h3 : kv0.1 = lmMaxKeyFold e.lines 0 := by omega
        rw [← h3]
        exact lmContains_of_mem e.lines kv0 hm0
      · rw [hc]
        exact lmContains_of_mem e.lines kv hm
    · intro kv hm
      rw [hL]
      exact mem_le_lmMaxKeyFold e.lines 0 kv hm

/-- C7 counterexample: for a document with no lines, `Len` returns 1, not
0 as the claim states. -/
theorem c7_len_counterexample :
    (mkEditor [] ⟨0, 0, 0, 0⟩ false 99).lines = [] ∧
    (mkEditor [] ⟨0, 0, 0, 0⟩ false 99).Len = 1 ∧
    (mkEditor [] ⟨0, 0, 0, 0⟩ false 99).Len ≠ 0 := by
  refine ⟨rfl, rfl, by decide⟩

/-- C7 witness: the amended theorem applied to the document with single
line index 0. -/
theorem c7_len_witness :
    lmContains (mkEditor [((0 : Int), ['a'])] ⟨0, 0, 0, 0⟩ false 99).lines
        ((mkEditor [((0 : Int), ['a'])] ⟨0, 0, 0, 0⟩ false 99).Len - 1) = true ∧
    ∀ kv ∈ (mkEditor [((0 : Int), ['a'])] ⟨0, 0, 0, 0⟩ false 99).lines,
      kv.1 ≤ (mkEditor [((0 : Int), ['a'])] ⟨0, 0, 0, 0⟩ false 99).Len - 1 :=
  (c7_len_amended (mkEditor [((0 : Int), ['a'])] ⟨0, 0, 0, 0⟩ false 99)
    (by decide)).2 (by decide)

/-! ### C8: `Get` is total -/

/-- C8 (confirmed): for every coordinate with a non-negative column, `Get`
never signals an error: it returns a space when the line is absent or the
column is at or past the line's length, and the stored rune otherwise. -/
theorem c8_get_total (e : Editor) (x y : Int) (hx : 0 ≤ x) :
    (lmLookup e.lines y = none → e.Get x y = some ' ') ∧
    (∀ runes, lmLookup e.lines y = some runes → (runes.length : Int) ≤ x →
      e.Get x y = some ' ') ∧
    (∀ runes, lmLookup e.lines y = some runes → x < (runes.length : Int) →
      e.Get x y = some (runes.getD x.toNat ' ')) := by
  refine ⟨?_, ?_, ?_⟩
  · intro h
    unfold Editor.Get
    rw [h]
  · intro runes h hlen
    unfold Editor.Get
    rw [h]
    simp only
    rw [if_pos hlen]
  · intro runes h hlt
    unfold Editor.Get
    rw [h]
    simp only
    rw [if_neg (by omega), if_pos hx]

/-- C8 witness: the theorem applied at a concrete coordinate. -/
theorem c8_get_witness :
    (lmLookup (mkEditor (ofLines [['h', 'i']]) ⟨0, 0, 0, 0⟩ false 99).lines 5 = none →
      (mkEditor (ofLines [['h', 'i']]) ⟨0, 0, 0, 0⟩ false 99).Get 1 5 = some ' ') ∧
    (∀ runes,
      lmLookup (mkEditor (ofLines [['h', 'i']]) ⟨0, 0, 0, 0⟩ false 99).lines 5 = some runes →
      (runes.length : Int) ≤ 1 →
      (mkEditor (ofLines [['h', 'i']]) ⟨0, 0, 0, 0⟩ false 99).Get 1 5 = some ' ') ∧
    (∀ runes,
      lmLookup (mkEditor (ofLines [['h', 'i']]) ⟨0, 0, 0, 0⟩ false 99).lines 5 = some runes →
      (1 : Int) < (runes.length : Int) →
      (mkEditor (ofLines [['h', 'i']]) ⟨0, 0, 0, 0⟩ false 99).Get 1 5 =
        some (runes.getD (1 : Int).toNat ' ')) :=
  c8_get_total (mkEditor (ofLines [['h', 'i']]) ⟨0, 0, 0, 0⟩ false 99) 1 5 (by decide)

/-! ### C10: the favicon writer rejects non-gray4 modes up front -/

/-- C10 (confirmed): for every mode other than 4-bit grayscale,
`WriteFavicon` returns the error before drawing or creating any file,
regardless of the other arguments. -/
theorem c10_writefavicon_guard (mode : Mode) (text : List Char) (filename : String)
    (asOther : Bool) (h : mode ≠ Mode.modeGray4) :
    WriteFavicon mode text filename asOther =
      Except.error "saving .ico files is only implemented for 4-bit grayscale images" := by
  unfold WriteFavicon
  rw [if_pos h]

/-- C10 witness: the theorem applied to the RGB mode. -/
theorem c10_writefavicon_witness :
    WriteFavicon Mode.modeRGB [] "favicon.ico" true =
      Except.error "saving .ico files is only implemented for 4-bit grayscale images" :=
  c10_writefavicon_guard Mode.modeRGB [] "favicon.ico" true (by decide)

/-! ### C9: trailing-whitespace trimming -/

theorem trimRightFindLoop_neg (l : List Char) (fuel : Nat) (x : Int) (h : x < 0) :
    trimRightFindLoop l fuel x = none := by
  cases fuel with
  | zero => rfl
  | succ fuel => simp only [trimRightFindLoop, if_neg (by omega : ¬ (0 : Int) ≤ x)]

theorem trimRightFindLoop_some_le (l : List Char) :
    ∀ (fuel : Nat) (x j : Int), trimRightFindLoop l fuel x = some j → 0 ≤ j ∧ j ≤ x := by
  intro fuel
  induction fuel with
  | zero => intro x j h; exact absurd h (by simp [trimRightFindLoop])
  | succ fuel ih =>
    intro x j h
    simp only [trimRightFindLoop] at h
    by_cases h0 : (0 : Int) ≤ x
    · rw [if_pos h0] at h
      by_cases hs : goIsSpace (l.getD x.toNat ' ') = true
      · rw [if_pos hs] at h
        have := ih (x - 1) j h
        omega
      · rw [if_neg hs] at h
        cases h
        omega
    · rw [if_neg h0] at h
      cases h

theorem trimRightFindLoop_append (l : List Char) (c : Char) :
    ∀ (fuel : Nat) (x : Int), x < (l.length : Int) →
      trimRightFindLoop (l ++ [c]) fuel x = trimRightFindLoop l fuel x := by
  intro fuel
  induction fuel with
  | zero => intro x h; rfl
  | succ fuel ih =>
    intro x h
    by_cases h0 : (0 : Int) ≤ x
    · have hx : x.toNat < l.length := by omega
      simp only [trimRightFindLoop, if_pos h0]
      rw [List.getD_append l [c] ' ' x.toNat hx]
      by_cases hs : goIsSpace (l.getD x.toNat ' ') = true
      · rw [if_pos hs, if_pos hs, ih (x - 1) (by omega)]
      · rw [if_neg hs, if_neg hs]
    · simp only [trimRightFindLoop, if_neg h0]

theorem allSpace_trimRightFindLoop_none (l : List Char)
    (hall : ∀ c ∈ l, goIsSpace c = true) :
    ∀ (fuel : Nat) (x : Int), trimRightFindLoop l fuel x = none := by
  intro fuel
  induction fuel with
  | zero => intro x; rfl
  | succ fuel ih =>
    intro x
    by_cases h0 : (0 : Int) ≤ x
    · simp only [trimRightFindLoop, if_pos h0]
      have hs : goIsSpace (l.getD x.toNat ' ') = true := by
        by_cases hx : x.toNat < l.length
        · rw [List.getD_eq_getElem l ' ' hx]
          exact hall _ (List.getElem_mem hx)
        · rw [List.getD_eq_default l ' ' (by omega)]
          decide
      rw [if_pos hs]
      exact ih (x - 1)
    · simp only [trimRightFindLoop, if_neg h0]

/-- The characterization of the line transformation of `TrimRight`: it
agrees with the amended spec-side normalization (`claimStripLine` when the
line holds a non-whitespace rune, identity otherwise), and its scan comes
back empty exactly on all-whitespace lines. -/
theorem trimRightLine_spec (l : List Char) :
    trimRightLine l = specTrimLine l ∧
    (trimRightFindLoop l l.length ((l.length : Int) - 1) = none ↔
      ∀ c ∈ l, goIsSpace c = true) := by
  induction l using List.reverseRecOn with
  | nil =>
    constructor
    · rfl
    · simp only [List.length_nil]
      constructor
      · intro _ c hc
        simp at hc
      · intro _
        rfl
  | append_singleton A c ih =>
    have hlen : (A ++ [c]).length = A.length + 1 := by simp
    have hstep : trimRightFindLoop (A ++ [c]) (A ++ [c]).length (((A ++ [c]).length : Int) - 1) =
        if goIsSpace c = true then trimRightFindLoop (A ++ [c]) A.length ((A.length : Int) - 1)
        else some (A.length : Int) := by
      rw [hlen]
      have he : ((A.length + 1 : Nat) : Int) - 1 = (A.length : Int) := by push_cast; omega
      rw [he]
      simp only [trimRightFindLoop, if_pos (by omega : (0 : Int) ≤ (A.length : Int)),
        Int.toNat_natCast, List.getD_eq_getElem (A ++ [c]) ' '
          (by simp : A.length < (A ++ [c]).length),
        List.getElem_concat_length A c A.length rfl (by simp)]
    by_cases hs : goIsSpace c = true
    · rw [if_pos hs] at hstep
      by_cases hA : ∀ c' ∈ A, goIsSpace c' = true
      · -- the whole line is whitespace: the scan finds nothing, no trim
        have hnone : trimRightFindLoop (A ++ [c]) A.length ((A.length : Int) - 1)
            = none :=
          allSpace_trimRightFindLoop_none (A ++ [c])
            (by
              intro c' hc'
              rcases List.mem_append.mp hc' with h1 | h1
              · exact hA c' h1
              · rcases List.mem_singleton.mp h1 with rfl
                exact hs) _ _
        have hall2 : ∀ c' ∈ A ++ [c], goIsSpace c' = true := by
          intro c' hc'
          rcases List.mem_append.mp hc' with h1 | h1
          · exact hA c' h1
          · rcases List.mem_singleton.mp h1 with rfl
            exact hs
        constructor
        · rw [trimRightLine, hstep, hnone]
          simp only [Option.getD_none]
          rw [specTrimLine, if_pos (List.all_eq_true.mpr hall2)]
          rw [show ((A ++ [c]).length : Int) - 1 + 1 = ((A ++ [c]).length : Int) from by omega]
          rw [Int.toNat_natCast]
          exact List.take_of_length_le le_rfl
        · rw [hstep, hnone]
          exact iff_of_true rfl hall2
      · -- the line has a non-whitespace rune (inside `A`)
        have hAne : A ≠ [] := by
          intro hc0
          subst hc0
          exact hA (by intro c' hc'; simp at hc')
        have happ : trimRightFindLoop (A ++ [c]) A.length ((A.length : Int) - 1) =
            trimRightFindLoop A A.length ((A.length : Int) - 1) := by
          exact trimRightFindLoop_append A c A.length ((A.length : Int) - 1) (by
            have := List.length_pos.mpr hAne
            omega)
        have hnotnone : ¬ trimRightFindLoop A A.length ((A.length : Int) - 1) = none := by
          intro hn
          exact hA (ih.2.mp hn)
        obtain ⟨j, hj⟩ : ∃ j, trimRightFindLoop A A.length ((A.length : Int) - 1) = some j := by
          cases hval : trimRightFindLoop A A.length ((A.length : Int) - 1) with
          | none => exact absurd hval hnotnone
          | some j => exact ⟨j, rfl⟩
        have hjb := trimRightFindLoop_some_le A A.length ((A.length : Int) - 1) j hj
        have hallF : (A ++ [c]).all goIsSpace = false := by
          rw [Bool.eq_false_iff]
          intro hallT
          exact hA (by
            intro c' hc'
            exact List.all_eq_true.mp hallT c' (List.mem_append_left [c] hc'))
        have hallFA : A.all goIsSpace = false := by
          rw [Bool.eq_false_iff]
          intro hallT
          exact hA (List.all_eq_true.mp hallT)
        constructor
        · rw [trimRightLine, hstep, happ, hj]
          simp only [Option.getD_some]
          have htake : (A ++ [c]).take (j + 1).toNat = A.take (j + 1).toNat :=
            List.take_append_of_le_length (by omega)
          rw [htake]
          have hA1 : trimRightLine A = A.take (j + 1).toNat := by
            rw [trimRightLine, hj]
            simp only [Option.getD_some]
          rw [← hA1, ih.1]
          rw [specTrimLine, if_neg (by rw [hallFA]; simp),
            specTrimLine, if_neg (by rw [hallF]; simp)]
          have hstrip : claimStripLine (A ++ [c]) = claimStripLine A := by
            rw [claimStripLine, claimStripLine, List.reverse_append]
            simp [List.dropWhile_cons, hs]
          rw [hstrip]
        · rw [hstep, happ, hj]
          exact iff_of_false (Option.some_ne_none j)
            (fun hall2 => hA (fun c' hc' => hall2 c' (List.mem_append_left [c] hc')))
    · -- the final rune is not whitespace: nothing is trimmed
      rw [if_neg hs] at hstep
      have hallF : (A ++ [c]).all goIsSpace = false := by
        rw [Bool.eq_false_iff]
        intro hallT
        exact hs (List.all_eq_true.mp hallT c (by simp))
      constructor
      · rw [trimRightLine, hstep]
        simp only [Option.getD_some]
        rw [specTrimLine, if_neg (by rw [hallF]; simp)]
        rw [show (A.length : Int) + 1 = ((A.length + 1 : Nat) : Int) from by push_cast; ring,
          Int.toNat_natCast]
        rw [List.take_of_length_le (by simp)]
        have hstrip : claimStripLine (A ++ [c]) = A ++ [c] := by
          rw [claimStripLine, List.reverse_append]
          simp [List.dropWhile_cons, hs]
        rw [hstrip]
      · rw [hstep]
        exact iff_of_false (Option.some_ne_none _)
          (fun hall2 => hs (hall2 c (by simp)))

/-- C9 (amended): `TrimRight` on an existing line `n` keeps the entry
present and never lengthens the line; it removes exactly the maximal run of
trailing whitespace when the line contains a non-whitespace rune, and — in
deviation from the claim — leaves a line consisting entirely of whitespace
(in particular a single whitespace rune) unchanged rather than reducing it
to length 0. -/
theorem c9_trim_amended (e : Editor) (n : Int) (l : List Char)
    (h : lmLookup e.lines n = some l) :
    (e.TrimRight n).lines = lmInsert e.lines n (trimRightLine l) ∧
    lmContains (e.TrimRight n).lines n = true ∧
    (trimRightLine l).length ≤ l.length ∧
    (l.all goIsSpace = false → trimRightLine l = claimStripLine l) ∧
    (l.all goIsSpace = true → trimRightLine l = l) := by
  have hlines : (e.TrimRight n).lines = lmInsert e.lines n (trimRightLine l) := by
    unfold Editor.TrimRight
    rw [h]
  refine ⟨hlines, ?_, ?_, ?_, ?_⟩
  · rw [hlines]
    exact lmContains_lmInsert_self e.lines n (trimRightLine l)
  · rw [trimRightLine, List.length_take]
    exact Nat.min_le_right _ _
  · intro hf
    rw [(trimRightLine_spec l).1, specTrimLine, if_neg (by rw [hf]; simp)]
  · intro ht
    rw [(trimRightLine_spec l).1, specTrimLine, if_pos ht]

/-- C9 counterexample: a line consisting of a single whitespace rune is
left unchanged by `TrimRight` (length 1), not reduced to length 0 as the
claim states. -/
theorem c9_trim_counterexample :
    ((mkEditor (ofLines [[' ']]) ⟨0, 0, 0, 0⟩ false 99).TrimRight 0).Line 0 = [' '] ∧
    (((mkEditor (ofLines [[' ']]) ⟨0, 0, 0, 0⟩ false 99).TrimRight 0).Line 0).length ≠ 0 := by
  exact ⟨rfl, by decide⟩

/-- C9 witness: the amended theorem applied to the line `"a "`. -/
theorem c9_trim_witness :
    ((mkEditor (ofLines [['a', ' ']]) ⟨0, 0, 0, 0⟩ false 99).TrimRight 0).lines =
      lmInsert (mkEditor (ofLines [['a', ' ']]) ⟨0, 0, 0, 0⟩ false 99).lines 0
        (trimRightLine ['a', ' ']) ∧
    lmContains ((mkEditor (ofLines [['a', ' ']]) ⟨0, 0, 0, 0⟩ false 99).TrimRight 0).lines 0
      = true ∧
    (trimRightLine ['a', ' ']).length ≤ (['a', ' '] : List Char).length ∧
    ((['a', ' '] : List Char).all goIsSpace = false →
      trimRightLine ['a', ' '] = claimStripLine ['a', ' ']) ∧
    ((['a', ' '] : List Char).all goIsSpace = true → trimRightLine ['a', ' '] = ['a', ' ']) :=
  c9_trim_amended (mkEditor (ofLines [['a', ' ']]) ⟨0, 0, 0, 0⟩ false 99) 0 ['a', ' ']
    (by decide)

/-! ### C4: typing a space at end-of-line on an over-long line -/

/-- C4 counterexample: the claim as stated fails when the over-long current
line is not the last line and every line below it is empty: on
`["aaaa", ""]` with wrap threshold 3, cursor at end of line 0, typing a
space deletes the trailing empty line and opens no blank line below —
afterwards the document is the single line `"aaaa"`. -/
theorem c4_space_at_eol_counterexample :
    (0 : Int) <
      (mkEditor (ofLines [['a', 'a', 'a', 'a'], []]) ⟨4, 0, 0, 0⟩ false 3).wordWrapAt ∧
    (mkEditor (ofLines [['a', 'a', 'a', 'a'], []]) ⟨4, 0, 0, 0⟩ false 3).WithinLimit
      (mkEditor (ofLines [['a', 'a', 'a', 'a'], []]) ⟨4, 0, 0, 0⟩ false 3).DataY = false ∧
    goIsSpace ' ' = true ∧
    (mkEditor (ofLines [['a', 'a', 'a', 'a'], []]) ⟨4, 0, 0, 0⟩
      false 3).AtOrAfterEndOfLine = true ∧
    ((mkEditor (ofLines [['a', 'a', 'a', 'a'], []]) ⟨4, 0, 0, 0⟩ false 3).InsertRune
      none ' ').lines = ofLines [['a', 'a', 'a', 'a']] ∧
    lmLookup ((mkEditor (ofLines [['a', 'a', 'a', 'a'], []]) ⟨4, 0, 0, 0⟩
      false 3).InsertRune none ' ').lines 1 = none ∧
    ((mkEditor (ofLines [['a', 'a', 'a', 'a'], []]) ⟨4, 0, 0, 0⟩ false 3).InsertRune
      none ' ').Len = 1 := by
  refine ⟨?_, ?_, ?_, ?_, ?_, ?_, ?_⟩ <;> decide

/-! ### C5: bulk re-wrap idempotence -/

theorem lookup_ofLines_mem (ls : List (List Char)) (j : Int) (l : List Char)
    (h : lmLookup (ofLines ls) j = some l) : l ∈ ls := by
  rw [ofLines, lmLookup_ofLinesFrom] at h
  by_cases hc : 0 ≤ j ∧ j < 0 + (ls.length : Int)
  · rw [if_pos hc] at h
    cases h
    rw [List.getD_eq_getElem ls [] (by omega)]
    exact List.getElem_mem (by omega)
  · rw [if_neg hc] at h
    cases h

theorem wrapAllLoop_within (e : Editor) (hall : ∀ j : Int, e.WithinLimit j = true) :
    ∀ (fuel : Nat) (i : Int) (w : Bool), wrapAllLoop fuel e i w = (e, w) := by
  intro fuel
  induction fuel with
  | zero => intro i w; rfl
  | succ fuel ih =>
    intro i w
    simp only [wrapAllLoop]
    by_cases hlt : i < e.Len
    · rw [if_pos hlt, if_pos (hall i)]
      exact ih (i + 1) w
    · rw [if_neg hlt]

/-- C5 (amended): `WrapAllLinesAt` is not idempotent in general (see the
counterexample), but on a document in which every line is strictly within
the active wrap limit it performs no wrapping and changes nothing, so a
second call with the same arguments leaves the lines unchanged.  (The
source ignores both parameters and wraps at `e.wordWrapAt`.) -/
theorem c5_wrap_idempotent_amended (e : Editor) (ls : List (List Char)) (n m : Int)
    (hl : e.lines = ofLines ls) (hww : 0 < e.wordWrapAt)
    (hshort : ∀ l ∈ ls, (l.length : Int) < e.wordWrapAt) :
    (e.WrapAllLinesAt n m).1 = e ∧ (e.WrapAllLinesAt n m).2 = false ∧
    ((e.WrapAllLinesAt n m).1.WrapAllLinesAt n m).1.lines =
      (e.WrapAllLinesAt n m).1.lines := by
  have hall : ∀ j : Int, e.WithinLimit j = true := by
    intro j
    cases hlk : lmLookup e.lines j with
    | none =>
      rw [Editor.WithinLimit, hlk]
      simp only [Option.getD_none, List.length_nil, Nat.cast_zero, decide_eq_true_eq]
      omega
    | some l =>
      rw [Editor.WithinLimit, hlk]
      simp only [Option.getD_some, decide_eq_true_eq]
      exact hshort l (lookup_ofLines_mem ls j l (hl ▸ hlk))
  have h1 : e.WrapAllLinesAt n m = (e, false) := wrapAllLoop_within e hall _ 0 false
  refine ⟨by rw [h1], by rw [h1], by rw [h1, h1]⟩

/-- C5 counterexample: on the one-line document `"ab c efg"` with wrap
limit 4, a first bulk re-wrap produces `["ab c", "efg"]` and a second call
with the same arguments wraps further (to `["ab", "c", "efg"]`), because
the first pass leaves line 0 at exactly the wrap column with a usable space
split point. -/
theorem c5_wrap_idempotent_counterexample :
    ((mkEditor (ofLines [['a', 'b', ' ', 'c', ' ', 'e', 'f', 'g']]) ⟨0, 0, 0, 0⟩
        false 4).WrapAllLinesAt 4 2).1.lines = ofLines [['a', 'b', ' ', 'c'], ['e', 'f', 'g']] ∧
    ((((mkEditor (ofLines [['a', 'b', ' ', 'c', ' ', 'e', 'f', 'g']]) ⟨0, 0, 0, 0⟩
        false 4).WrapAllLinesAt 4 2).1.WrapAllLinesAt 4 2)).1.lines ≠
      ((mkEditor (ofLines [['a', 'b', ' ', 'c', ' ', 'e', 'f', 'g']]) ⟨0, 0, 0, 0⟩
        false 4).WrapAllLinesAt 4 2).1.lines := by
  refine ⟨?_, ?_⟩ <;> decide

/-- C5 witness: the amended theorem applied to a document within the wrap
limit. -/
theorem c5_wrap_idempotent_witness :
    ((mkEditor (ofLines [['h', 'i']]) ⟨0, 0, 0, 0⟩ false 99).WrapAllLinesAt 4 2).1 =
      mkEditor (ofLines [['h', 'i']]) ⟨0, 0, 0, 0⟩ false 99 ∧
    ((mkEditor (ofLines [['h', 'i']]) ⟨0, 0, 0, 0⟩ false 99).WrapAllLinesAt 4 2).2 = false ∧
    (((mkEditor (ofLines [['h', 'i']]) ⟨0, 0, 0, 0⟩ false 99).WrapAllLinesAt 4
        2).1.WrapAllLinesAt 4 2).1.lines =
      ((mkEditor (ofLines [['h', 'i']]) ⟨0, 0, 0, 0⟩ false 99).WrapAllLinesAt 4 2).1.lines :=
  c5_wrap_idempotent_amended (mkEditor (ofLines [['h', 'i']]) ⟨0, 0, 0, 0⟩ false 99)
    [['h', 'i']] 4 2 rfl (by decide) (by decide)

/-! ### C2: save/load round-trip -/

theorem lmLookup_lmInsert_self (m : LineMap) (j : Int) (v : List Char) :
    lmLookup (lmInsert m j v) j = some v := by
  induction m with
  | nil => simp [lmInsert, lmLookup]
  | cons kv m ih =>
    obtain ⟨k, w⟩ := kv
    simp only [lmInsert]
    by_cases h1 : j = k
    · simp [lmLookup, h1]
    · rw [if_neg h1]
      by_cases h2 : j < k
      · simp [if_pos h2, lmLookup]
      · simpa [if_neg h2, lmLookup, h1] using ih

theorem dropWhile_head_false {α : Type} (p : α → Bool) :
    ∀ (l : List α) (a : α) (t : List α), l.dropWhile p = a :: t → p a = false := by
  intro l
  induction l with
  | nil => intro a t h; simp at h
  | cons x xs ih =>
    intro a t h
    by_cases hx : p x = true
    · rw [List.dropWhile_cons_of_pos hx] at h
      exact ih a t h
    · rw [List.dropWhile_cons_of_neg hx] at h
      cases h
      simpa using hx

theorem dropWhile_dropWhile {α : Type} (p : α → Bool) (l : List α) :
    (l.dropWhile p).dropWhile p = l.dropWhile p := by
  cases h : l.dropWhile p with
  | nil => rfl
  | cons a t =>
    rw [List.dropWhile_cons_of_neg]
    rw [dropWhile_head_false p l a t h]
    simp

theorem mem_of_mem_dropWhile {α : Type} (p : α → Bool) (l : List α) (a : α)
    (h : a ∈ l.dropWhile p) : a ∈ l :=
  List.Sublist.mem h (List.dropWhile_sublist p)

theorem claimStripLine_idem (l : List Char) :
    claimStripLine (claimStripLine l) = claimStripLine l := by
  unfold claimStripLine
  rw [List.reverse_reverse, dropWhile_dropWhile]

theorem mem_claimStripLine (l : List Char) (c : Char) (h : c ∈ claimStripLine l) : c ∈ l := by
  unfold claimStripLine at h
  rw [List.mem_reverse] at h
  have h2 := mem_of_mem_dropWhile goIsSpace l.reverse c h
  rwa [List.mem_reverse] at h2

theorem mem_specTrimLine (l : List Char) (c : Char) (h : c ∈ specTrimLine l) : c ∈ l := by
  rw [specTrimLine] at h
  by_cases ha : l.all goIsSpace = true
  · rwa [if_pos ha] at h
  · rw [if_neg ha] at h
    exact mem_claimStripLine l c h

theorem foldl_append_singleton (f : Nat → List Char) (c : Char) :
    ∀ (l : List Nat) (acc : List Char),
      l.foldl (fun acc i => acc ++ f i ++ [c]) acc = acc ++ l.flatMap (fun i => f i ++ [c]) := by
  intro l
  induction l with
  | nil => intro acc; simp
  | cons i t ih =>
    intro acc
    simp only [List.foldl_cons, List.flatMap_cons]
    rw [ih]
    simp [List.append_assoc]

theorem range_flatMap_getD (ls : List (List Char)) :
    (List.range ls.length).flatMap (fun i => ls.getD i [] ++ ['\n']) = joinNL ls := by
  induction ls with
  | nil => rfl
  | cons l t ih =>
    rw [List.length_cons, List.range_succ_eq_map, List.flatMap_cons, List.flatMap_map]
    have hfun : (fun a : Nat => (l :: t).getD a.succ [] ++ ['\n']) =
        (fun a : Nat => t.getD a [] ++ ['\n']) := by
      funext a
      rw [show a.succ = a + 1 from rfl, List.getD_cons_succ]
    rw [hfun, ih, List.getD_cons_zero,
      show joinNL (l :: t) = l ++ ['\n'] ++ joinNL t from by
        rw [joinNL, List.flatMap_cons, ← joinNL]]

theorem Line_eq_getD (e : Editor) (n : Int) :
    e.Line n = (lmLookup e.lines n).getD [] := by
  rw [Editor.Line]
  cases lmLookup e.lines n <;> rfl

theorem Line_ofLines (e : Editor) (ls : List (List Char)) (h : e.lines = ofLines ls) (i : Nat) :
    e.Line (i : Int) = ls.getD i [] := by
  rw [Line_eq_getD, h, ofLines, lmLookup_ofLinesFrom]
  by_cases hc : (0 : Int) ≤ (i : Int) ∧ (i : Int) < 0 + (ls.length : Int)
  · rw [if_pos hc]
    simp only [Option.getD_some]
    have hi : ((i : Int) - 0).toNat = i := by omega
    rw [hi]
  · rw [if_neg hc]
    rw [Option.getD_none, List.getD_eq_default]
    omega

theorem stringContents_ofLines (e : Editor) (ls : List (List Char)) (hne : ls ≠ [])
    (h : e.lines = ofLines ls) : e.stringContents = joinNL ls := by
  have hlen : e.Len = (ls.length : Int) := by
    rw [Editor.Len_eq, h, lmLen_ofLines ls hne]
  rw [Editor.stringContents, hlen, Int.toNat_natCast]
  rw [foldl_append_singleton (fun i => e.Line (i : Int)) '\n' (List.range ls.length) []]
  rw [List.nil_append]
  have hfun : (fun i : Nat => e.Line (i : Int) ++ ['\n']) =
      (fun i : Nat => ls.getD i [] ++ ['\n']) :=
    funext (fun i => by rw [Line_ofLines e ls h i])
  rw [hfun]
  exact range_flatMap_getD ls

theorem goTrimRightSpace_append_allWs (s t : List Char)
    (h : ∀ c ∈ t, goIsSpace c = true) :
    goTrimRightSpace (s ++ t) = goTrimRightSpace s := by
  rw [goTrimRightSpace, goTrimRightSpace, List.reverse_append, List.dropWhile_append]
  rw [List.dropWhile_eq_nil_iff.mpr (fun x hx => h x (List.mem_reverse.mp hx))]
  rfl

theorem goTrimRightSpace_append_lastNonWs (s t : List Char)
    (h : ∃ c ∈ t, goIsSpace c = false) :
    goTrimRightSpace (s ++ t) = s ++ goTrimRightSpace t := by
  rw [goTrimRightSpace, goTrimRightSpace, List.reverse_append, List.dropWhile_append]
  have hne : t.reverse.dropWhile goIsSpace ≠ [] := by
    rw [Ne, List.dropWhile_eq_nil_iff]
    intro hall
    obtain ⟨c, hc, hcf⟩ := h
    rw [hall c (List.mem_reverse.mpr hc)] at hcf
    cases hcf
  rw [if_neg (by simpa [List.isEmpty_iff] using hne)]
  rw [List.reverse_append, List.reverse_reverse]

theorem goTrimRightSpace_joinNL (ls : List (List Char)) :
    goTrimRightSpace (joinNL ls) =
      joinNL ((ls.reverse.dropWhile (fun l => l.all goIsSpace)).reverse).dropLast ++
        claimStripLine (((ls.reverse.dropWhile (fun l => l.all goIsSpace)).reverse).getLastD []) := by
  induction ls using List.reverseRecOn with
  | nil => rfl
  | append_singleton ys y ih =>
    have hjoin : joinNL (ys ++ [y]) = joinNL ys ++ (y ++ ['\n']) := by
      simp [joinNL]
    rw [hjoin]
    by_cases hy : y.all goIsSpace = true
    · rw [goTrimRightSpace_append_allWs (joinNL ys) (y ++ ['\n']) (by
        intro c hc
        rcases List.mem_append.mp hc with h1 | h1
        · exact List.all_eq_true.mp hy c h1
        · rcases List.mem_singleton.mp h1 with rfl
          decide)]
      rw [ih]
      have hdw : (ys ++ [y]).reverse.dropWhile (fun l => l.all goIsSpace) =
          ys.reverse.dropWhile (fun l => l.all goIsSpace) := by
        rw [List.reverse_append]
        rw [show ([y].reverse ++ ys.reverse : List (List Char)) = y :: ys.reverse from rfl]
        rw [List.dropWhile_cons]
        rw [if_pos (show (fun l : List Char => l.all goIsSpace) y = true from hy)]
      rw [hdw]
    · have hex : ∃ c ∈ y, goIsSpace c = false := by
        obtain ⟨c, hc, hcf⟩ := List.all_eq_false.mp (Bool.eq_false_iff.mpr hy)
        exact ⟨c, hc, Bool.eq_false_iff.mpr hcf⟩
      rw [goTrimRightSpace_append_lastNonWs (joinNL ys) (y ++ ['\n'])
        (by obtain ⟨c, hc, hcf⟩ := hex; exact ⟨c, List.mem_append_left _ hc, hcf⟩)]
      rw [goTrimRightSpace_append_allWs y ['\n'] (by intro c hc; rcases List.mem_singleton.mp hc with rfl; decide)]
      have hdw : (ys ++ [y]).reverse.dropWhile (fun l => l.all goIsSpace) =
          y :: ys.reverse := by
        rw [List.reverse_append]
        rw [show ([y].reverse ++ ys.reverse : List (List Char)) = y :: ys.reverse from rfl]
        rw [List.dropWhile_cons]
        rw [if_neg (show ¬ (fun l : List Char => l.all goIsSpace) y = true from hy)]
      rw [hdw]
      rw [show (y :: ys.reverse).reverse = ys ++ [y] from by simp]
      rw [List.dropLast_concat, List.getLastD_concat]
      rfl

theorem replaceNbsp_id (s : List Char) (h : ∀ c ∈ s, c ≠ Char.ofNat 0xA0) :
    replaceNbsp s = s := by
  induction s with
  | nil => rfl
  | cons c t ih =>
    rw [replaceNbsp, List.map_cons]
    rw [if_neg (h c (List.mem_cons_self c t))]
    rw [show List.map (fun ch => if ch = Char.ofNat 0xA0 then ' ' else ch) t = replaceNbsp t
      from rfl]
    rw [ih (fun c hc => h c (List.mem_cons_of_mem _ hc))]

theorem splitChar_append_cons (sep : Char) (t : List Char) :
    ∀ (l : List Char), sep ∉ l → splitChar sep (l ++ sep :: t) = l :: splitChar sep t := by
  intro l
  induction l with
  | nil =>
    intro _
    rw [List.nil_append, splitChar, if_pos rfl]
  | cons ch l' ih =>
    intro hmem
    have hch : ¬ ch = sep := fun hc => hmem (hc ▸ List.mem_cons_self ch l')
    rw [List.cons_append, splitChar, if_neg hch,
      ih (fun hc => hmem (List.mem_cons_of_mem _ hc))]

theorem splitChar_joinNL (ls : List (List Char)) (h : ∀ l ∈ ls, '\n' ∉ l) :
    splitChar '\n' (joinNL ls) = ls ++ [[]] := by
  induction ls with
  | nil => rfl
  | cons l t ih =>
    have hjoin : joinNL (l :: t) = l ++ '\n' :: joinNL t := by
      rw [joinNL, List.flatMap_cons, ← joinNL, List.append_assoc]
      rfl
    rw [hjoin, splitChar_append_cons '\n' (joinNL t) l (h l (List.mem_cons_self l t)),
      ih (fun l' hl' => h l' (List.mem_cons_of_mem _ hl')), List.cons_append]

theorem mem_joinNL (ls : List (List Char)) (c : Char) (h : c ∈ joinNL ls) :
    c = '\n' ∨ ∃ l ∈ ls, c ∈ l := by
  induction ls with
  | nil => cases h
  | cons l t ih =>
    rw [joinNL, List.flatMap_cons, ← joinNL] at h
    rcases List.mem_append.mp h with h1 | h1
    · rcases List.mem_append.mp h1 with h2 | h2
      · exact Or.inr ⟨l, List.mem_cons_self l t, h2⟩
      · rcases List.mem_singleton.mp h2 with rfl
        exact Or.inl rfl
    · rcases ih h1 with h2 | ⟨l', hl', hc⟩
      · exact Or.inl h2
      · exact Or.inr ⟨l', List.mem_cons_of_mem _ hl', hc⟩

theorem loadLineLoop_lines :
    ∀ (dl : List Char) (e : Editor) (y : Int) (acc : List Char),
      (lmLookup e.lines y).getD [] = acc →
      (loadLineLoop e y dl (acc.length : Int)).lines =
        if dl.isEmpty then e.lines else lmInsert e.lines y (acc ++ dl) := by
  intro dl
  induction dl with
  | nil =>
    intro e y acc h
    simp [loadLineLoop]
  | cons ch rest ih =>
    intro e y acc h
    rw [loadLineLoop]
    have hset : (e.Set (acc.length : Int) y ch).lines = lmInsert e.lines y (acc ++ [ch]) := by
      rw [Editor.Set]
      dsimp only
      rw [h]
      rw [if_neg (lt_irrefl _)]
      have h0 : ((acc.length : Int) - (acc.length : Nat)).toNat = 0 := by omega
      rw [h0]
      rw [show (List.replicate 0 ' ' : List Char) = [] from rfl, List.append_nil]
    have hlook : (lmLookup (e.Set (acc.length : Int) y ch).lines y).getD [] = acc ++ [ch] := by
      rw [hset, lmLookup_lmInsert_self]
      rfl
    have hcast : (acc.length : Int) + 1 = (((acc ++ [ch]).length : Nat) : Int) := by
      rw [List.length_append]
      push_cast [List.length_singleton]
      ring
    rw [hcast, ih (e.Set (acc.length : Int) y ch) y (acc ++ [ch]) hlook]
    cases rest with
    | nil => simp [hset]
    | cons r rs => simp [hset, lmInsert_lmInsert_self, List.append_assoc]

theorem lmLookup_none_of_keys (m : LineMap) (y : Int) (h : ∀ kv ∈ m, kv.1 ≠ y) :
    lmLookup m y = none := by
  induction m with
  | nil => rfl
  | cons kv m ih =>
    obtain ⟨k, w⟩ := kv
    rw [lmLookup, if_neg (fun hc => h (k, w) (List.mem_cons_self _ _) hc.symm)]
    exact ih (fun kv hm => h kv (List.mem_cons_of_mem _ hm))

theorem loadLinesLoop_lines :
    ∀ (xs : List (List Char)) (e : Editor) (y : Int),
      (∀ kv ∈ e.lines, kv.1 < y) →
      (loadLinesLoop e y xs).lines = e.lines ++ ofLinesSparseFrom y xs := by
  intro xs
  induction xs with
  | nil =>
    intro e y _
    simp [loadLinesLoop, ofLinesSparseFrom]
  | cons l t ih =>
    intro e y hk
    rw [loadLinesLoop]
    have hnone : lmLookup e.lines y = none :=
      lmLookup_none_of_keys e.lines y (fun kv hm => ne_of_lt (hk kv hm))
    have h0 : (lmLookup e.lines y).getD [] = ([] : List Char) := by rw [hnone]; rfl
    have hl0 := loadLineLoop_lines l e y [] h0
    simp only [List.length_nil, Nat.cast_zero, List.nil_append] at hl0
    by_cases hle : l.isEmpty
    · rw [if_pos hle] at hl0
      rw [ih (loadLineLoop e y l 0) (y + 1)
        (by rw [hl0]; exact fun kv hm => lt_trans (hk kv hm) (by omega))]
      rw [hl0]
      rw [ofLinesSparseFrom, if_pos hle]
    · rw [if_neg hle] at hl0
      have hl1 : (loadLineLoop e y l 0).lines = e.lines ++ [(y, l)] := by
        rw [hl0]
        exact lmInsert_append_of_gt e.lines y l hk
      rw [ih (loadLineLoop e y l 0) (y + 1)
        (by
          rw [hl1]
          intro kv hm
          rcases List.mem_append.mp hm with h1 | h1
          · exact lt_trans (hk kv h1) (by omega)
          · rcases List.mem_singleton.mp h1 with rfl
            omega)]
      rw [hl1, ofLinesSparseFrom, if_neg hle, List.append_assoc]
      rfl

theorem ofLinesSparseFrom_append_nilline :
    ∀ (xs : List (List Char)) (y : Int),
      ofLinesSparseFrom y (xs ++ [[]]) = ofLinesSparseFrom y xs := by
  intro xs
  induction xs with
  | nil =>
    intro y
    rfl
  | cons l t ih =>
    intro y
    rw [List.cons_append, ofLinesSparseFrom, ofLinesSparseFrom, ih]

theorem lmLookupD_sparse :
    ∀ (xs : List (List Char)) (y j : Int),
      (lmLookup (ofLinesSparseFrom y xs) j).getD [] =
        if y ≤ j ∧ j < y + xs.length then xs.getD (j - y).toNat [] else [] := by
  intro xs
  induction xs with
  | nil =>
    intro y j
    rw [ofLinesSparseFrom]
    rw [if_neg (by simp only [List.length_nil]; push_cast; omega)]
    rfl
  | cons l t ih =>
    intro y j
    rw [ofLinesSparseFrom]
    by_cases hle : l.isEmpty
    · rw [if_pos hle, ih (y + 1) j]
      have hl : l = [] := List.isEmpty_iff.mp hle
      by_cases hj : j = y
      · subst hj
        rw [if_neg (by omega),
          if_pos (by simp only [List.length_cons]; push_cast; omega)]
        rw [show (j - j).toNat = 0 from by omega, List.getD_cons_zero, hl]
      · by_cases hc : y + 1 ≤ j ∧ j < y + 1 + (t.length : Int)
        · rw [if_pos hc, if_pos (by simp only [List.length_cons]; push_cast at hc ⊢; omega)]
          rw [show (j - y).toNat = (j - (y + 1)).toNat + 1 from by omega, List.getD_cons_succ]
        · rw [if_neg hc, if_neg (by simp only [List.length_cons]; push_cast at hc ⊢; omega)]
    · rw [if_neg hle]
      by_cases hj : j = y
      · subst hj
        rw [lmLookup, if_pos rfl]
        rw [if_pos (by simp only [List.length_cons]; push_cast; omega)]
        rw [show (j - j).toNat = 0 from by omega, List.getD_cons_zero]
        rfl
      · rw [lmLookup, if_neg hj, ih (y + 1) j]
        by_cases hc : y + 1 ≤ j ∧ j < y + 1 + (t.length : Int)
        · rw [if_pos hc, if_pos (by simp only [List.length_cons]; push_cast at hc ⊢; omega)]
          rw [show (j - y).toNat = (j - (y + 1)).toNat + 1 from by omega, List.getD_cons_succ]
        · rw [if_neg hc, if_neg (by simp only [List.length_cons]; push_cast at hc ⊢; omega)]

theorem key_bound_sparse :
    ∀ (xs : List (List Char)) (y : Int) (kv : Int × List Char),
      kv ∈ ofLinesSparseFrom y xs → y ≤ kv.1 ∧ kv.1 < y + xs.length := by
  intro xs
  induction xs with
  | nil =>
    intro y kv h
    cases h
  | cons l t ih =>
    intro y kv h
    rw [ofLinesSparseFrom] at h
    by_cases hle : l.isEmpty
    · rw [if_pos hle] at h
      have := ih (y + 1) kv h
      simp only [List.length_cons]
      push_cast at this ⊢
      omega
    · rw [if_neg hle] at h
      rcases List.mem_cons.mp h with h1 | h1
      · subst h1
        simp only [List.length_cons]
        push_cast
        omega
      · have := ih (y + 1) kv h1
        simp only [List.length_cons]
        push_cast at this ⊢
        omega

theorem mem_sparse :
    ∀ (xs : List (List Char)) (y : Int) (i : Nat), i < xs.length → xs.getD i [] ≠ [] →
      ((y + i : Int), xs.getD i []) ∈ ofLinesSparseFrom y xs := by
  intro xs
  induction xs with
  | nil =>
    intro y i hi
    simp at hi
  | cons l t ih =>
    intro y i hi hne
    rw [ofLinesSparseFrom]
    cases i with
    | zero =>
      rw [List.getD_cons_zero] at hne ⊢
      rw [if_neg (fun hc => hne (List.isEmpty_iff.mp hc))]
      simp only [Nat.cast_zero, add_zero]
      exact List.mem_cons_self _ _
    | succ n =>
      rw [List.getD_cons_succ] at hne ⊢
      have hmem := ih (y + 1) n (by simpa using hi) hne
      have hkey : (y + ((n + 1 : Nat) : Int)) = ((y + 1) + (n : Nat) : Int) := by
        push_cast
        ring
      rw [hkey]
      by_cases hle : l.isEmpty
      · rw [if_pos hle]
        exact hmem
      · rw [if_neg hle]
        exact List.mem_cons_of_mem _ hmem

theorem lmLen_sparse (xs : List (List Char)) (hne : xs ≠ [])
    (hlast : xs.getD (xs.length - 1) [] ≠ []) :
    lmLen (ofLinesSparseFrom 0 xs) = (xs.length : Int) := by
  have hlen : 0 < xs.length := List.length_pos.mpr hne
  have hub : lmMaxKeyFold (ofLinesSparseFrom 0 xs) 0 ≤ (xs.length : Int) - 1 := by
    rcases lmMaxKeyFold_cases (ofLinesSparseFrom 0 xs) 0 with hc | ⟨kv, hm, hc⟩
    · omega
    · have := key_bound_sparse xs 0 kv hm
      omega
  have hlb : (xs.length : Int) - 1 ≤ lmMaxKeyFold (ofLinesSparseFrom 0 xs) 0 := by
    have hmem := mem_sparse xs 0 (xs.length - 1) (by omega) hlast
    have := mem_le_lmMaxKeyFold (ofLinesSparseFrom 0 xs) 0 _ hmem
    simp only at this
    omega
  rw [lmLen]
  omega

theorem trimAllLoop_lines (ls : List (List Char)) (hne : ls ≠ []) :
    ∀ (fuel : Nat) (i : Nat) (e : Editor),
      e.lines = ofLines ((ls.take i).map trimRightLine ++ ls.drop i) →
      ls.length ≤ fuel + i →
      (trimAllLoop fuel e (i : Int)).lines = ofLines (ls.map trimRightLine) := by
  have hpos : 0 < ls.length := List.length_pos.mpr hne
  intro fuel
  induction fuel with
  | zero =>
    intro i e he hfuel
    have htake : ls.take i = ls := List.take_of_length_le (by omega)
    have hdrop : ls.drop i = [] := List.drop_eq_nil_of_le (by omega)
    rw [trimAllLoop, he, htake, hdrop, List.append_nil]
  | succ fuel ih =>
    intro i e he hfuel
    have hLlen : ((ls.take i).map trimRightLine ++ ls.drop i).length = ls.length := by
      rw [List.length_append, List.length_map, List.length_take, List.length_drop]
      omega
    have hLne : (ls.take i).map trimRightLine ++ ls.drop i ≠ [] := by
      intro hc
      rw [hc] at hLlen
      simp only [List.length_nil] at hLlen
      omega
    have hlen : e.Len = (ls.length : Int) := by
      rw [Editor.Len_eq, he, lmLen_ofLines _ hLne, hLlen]
    simp only [trimAllLoop]
    by_cases hi : i < ls.length
    · rw [if_pos (by rw [hlen]; exact_mod_cast hi)]
      have hAlen : ((ls.take i).map trimRightLine).length = i := by
        rw [List.length_map, List.length_take]
        omega
      have hgetl : ((ls.take i).map trimRightLine ++ ls.drop i).getD i [] = ls.getD i [] := by
        rw [List.getD_append_right _ _ _ _ (le_of_eq hAlen), hAlen, Nat.sub_self,
          List.drop_eq_getElem_cons hi, List.getD_cons_zero, List.getD_eq_getElem ls [] hi]
      have hlook : lmLookup e.lines (i : Int) = some (ls.getD i []) := by
        rw [he, ofLines, lmLookup_ofLinesFrom]
        rw [if_pos (by
          constructor
          · omega
          · rw [hLlen]
            omega)]
        rw [show ((i : Int) - 0).toNat = i from by omega, hgetl]
      have hTR : (e.TrimRight (i : Int)).lines =
          ofLines ((ls.take (i + 1)).map trimRightLine ++ ls.drop (i + 1)) := by
        rw [Editor.TrimRight, hlook]
        dsimp only
        rw [he, ofLines, ofLines]
        have hset := lmInsert_ofLinesFrom_set 0 ((ls.take i).map trimRightLine ++ ls.drop i) i
          (trimRightLine (ls.getD i [])) (by rw [hLlen]; exact hi)
        rw [show ((0 : Int) + (i : Nat)) = ((i : Nat) : Int) from by omega] at hset
        rw [hset]
        congr 1
        rw [List.set_append, if_neg (by rw [hAlen]; omega), hAlen, Nat.sub_self,
          List.drop_eq_getElem_cons hi]
        rw [show (ls[i] :: ls.drop (i + 1)).set 0 (trimRightLine (ls.getD i [])) =
          trimRightLine (ls.getD i []) :: ls.drop (i + 1) from rfl]
        rw [List.take_succ, List.getElem?_eq_getElem hi,
          show (some ls[i]).toList = [ls[i]] from rfl, List.map_append]
        rw [show ((List.map trimRightLine [ls[i]]) : List (List Char)) =
          [trimRightLine ls[i]] from rfl]
        rw [List.append_assoc, List.singleton_append, List.getD_eq_getElem ls [] hi]
      have hstep := ih (i + 1) (e.TrimRight (i : Int)) hTR (by omega)
      rw [show ((i : Int) + 1) = ((i + 1 : Nat) : Int) from by push_cast; ring]
      exact hstep
    · rw [if_neg (by rw [hlen]; exact_mod_cast hi)]
      have htake : ls.take i = ls := List.take_of_length_le (by omega)
      have hdrop : ls.drop i = [] := List.drop_eq_nil_of_le (by omega)
      rw [he, htake, hdrop, List.append_nil]

theorem LoadFromData_lines (e : Editor) (data : List Char)
    (hnr : data.contains '\r' = false) :
    (e.LoadFromData data).lines = ofLinesSparseFrom 0 (splitChar '\n' data) := by
  rw [Editor.LoadFromData]
  dsimp only
  rw [hnr, if_neg Bool.false_ne_true]
  rw [loadLinesLoop_lines (splitChar '\n' data) e.Clear 0 (by
    intro kv hm
    simp [Editor.Clear] at hm)]
  rw [show (Editor.Clear e).lines = [] from rfl, List.nil_append]

/-- C2 (amended): the save/load round-trip, for a dense document whose
runes contain no newline, carriage return or no-break space (characters the
serialization itself rewrites), and a non-image filename.  `Save` writes
the text form and reloading those bytes yields, extensionally, the
normalized document `specNormalize ls`: trailing whitespace is stripped
from each line that holds a non-whitespace rune (an all-whitespace line is
kept as it is — this is where the claim as stated fails, see the
counterexample), trailing all-whitespace lines are dropped, and the file
carries exactly one trailing newline. -/
theorem c2_roundtrip_amended (e : Editor) (ls : List (List Char)) (filename : String)
    (asOther : Bool) (hl : e.lines = ofLines ls) (hne : ls ≠ [])
    (hchars : ∀ l ∈ ls, ∀ ch ∈ l, ch ≠ '\n' ∧ ch ≠ '\r' ∧ ch ≠ Char.ofNat 0xA0)
    (hico : goEndsWith filename ".ico" = false) (hpng : goEndsWith filename ".png" = false) :
    ∃ e' data, e.Save filename asOther = SaveResult.text e' data ∧
      (e'.LoadFromData data).Len = max 1 ((specNormalize ls).length : Int) ∧
      ∀ i : Nat, (e'.LoadFromData data).Line (i : Int) = (specNormalize ls).getD i [] := by
  have hsave : e.Save filename asOther =
      SaveResult.text { trimAllLoop (e.Len.toNat + 1) e 0 with changed := false }
        (replaceNbsp (goTrimRightSpace (trimAllLoop (e.Len.toNat + 1) e 0).stringContents)
          ++ ['\n']) := by
    rw [Editor.Save, hico, hpng]
    rfl
  have hLen0 : e.Len = (ls.length : Int) := by
    rw [Editor.Len_eq, hl, lmLen_ofLines ls hne]
  have hT := trimAllLoop_lines ls hne (e.Len.toNat + 1) 0 e
    (by simp only [List.take_zero, List.map_nil, List.nil_append, List.drop_zero]; exact hl)
    (by rw [hLen0]; omega)
  rw [Nat.cast_zero] at hT
  have hfun : trimRightLine = specTrimLine := funext (fun l => (trimRightLine_spec l).1)
  rw [hfun] at hT
  have hmne : ls.map specTrimLine ≠ [] := by
    intro hc
    have hlc := congrArg List.length hc
    simp only [List.length_map, List.length_nil] at hlc
    exact hne (List.eq_nil_of_length_eq_zero hlc)
  have hS : (trimAllLoop (e.Len.toNat + 1) e 0).stringContents = joinNL (ls.map specTrimLine) :=
    stringContents_ofLines _ _ hmne hT
  have hG := goTrimRightSpace_joinNL (ls.map specTrimLine)
  rw [show (((ls.map specTrimLine).reverse.dropWhile (fun l => l.all goIsSpace)).reverse) =
    specNormalize ls from rfl] at hG
  by_cases hks : specNormalize ls = []
  · -- the whole document is whitespace: the file is a single newline
    have hG0 : goTrimRightSpace (joinNL (ls.map specTrimLine)) = [] := by
      rw [hG, hks]
      rfl
    have hdata : replaceNbsp (goTrimRightSpace
        (trimAllLoop (e.Len.toNat + 1) e 0).stringContents) ++ ['\n'] = ['\n'] := by
      rw [hS, hG0]
      rfl
    refine ⟨_, _, hsave, ?_, ?_⟩
    · rw [hdata, Editor.Len_eq,
        LoadFromData_lines _ ['\n'] (by decide),
        show splitChar '\n' ['\n'] = [[], []] from rfl,
        show ofLinesSparseFrom 0 [[], []] = [] from rfl, lmLen_nil, hks]
      rfl
    · intro i
      rw [hdata, Line_eq_getD,
        LoadFromData_lines _ ['\n'] (by decide),
        show splitChar '\n' ['\n'] = [[], []] from rfl,
        show ofLinesSparseFrom 0 [[], []] = [] from rfl, hks]
      rfl
  · -- the normalized document is non-empty; its last line ends in a
    -- non-whitespace rune
    obtain ⟨ys, y, hk⟩ := exists_concat_of_ne_nil (specNormalize ls) hks
    have hrev : (ls.map specTrimLine).reverse.dropWhile (fun l => l.all goIsSpace) =
        y :: ys.reverse := by
      have hr : (specNormalize ls).reverse = y :: ys.reverse := by
        rw [hk]
        simp
      rw [specNormalize, List.reverse_reverse] at hr
      exact hr
    have hyall : y.all goIsSpace = false :=
      dropWhile_head_false _ _ y ys.reverse hrev
    have hymem : y ∈ ls.map specTrimLine := by
      have h1 : y ∈ (ls.map specTrimLine).reverse.dropWhile (fun l => l.all goIsSpace) := by
        rw [hrev]
        exact List.mem_cons_self _ _
      exact List.mem_reverse.mp (mem_of_mem_dropWhile _ _ _ h1)
    obtain ⟨l₀, hl₀, hy0⟩ := List.mem_map.mp hymem
    have hcs : claimStripLine y = y := by
      by_cases hws : l₀.all goIsSpace = true
      · rw [specTrimLine, if_pos hws] at hy0
        rw [← hy0] at hyall
        rw [hws] at hyall
        cases hyall
      · rw [specTrimLine, if_neg hws] at hy0
        rw [← hy0, claimStripLine_idem]
    have hyne : y ≠ [] := by
      intro hc
      rw [hc] at hyall
      simp at hyall
    have hksmem : ∀ l' ∈ specNormalize ls, ∃ l₁ ∈ ls, l' = specTrimLine l₁ := by
      intro l' hl'
      have h1 : l' ∈ (ls.map specTrimLine).reverse.dropWhile (fun l => l.all goIsSpace) := by
        rw [specNormalize] at hl'
        exact List.mem_reverse.mp hl'
      have h2 := List.mem_reverse.mp (mem_of_mem_dropWhile _ _ _ h1)
      obtain ⟨l₁, hm, he⟩ := List.mem_map.mp h2
      exact ⟨l₁, hm, he.symm⟩
    have hchar2 : ∀ l' ∈ ys ++ [y], ∀ c ∈ l', ∃ l₁ ∈ ls, c ∈ l₁ := by
      intro l' hl' c hc
      obtain ⟨l₁, h₁, h₂⟩ := hksmem l' (by rw [hk]; exact hl')
      exact ⟨l₁, h₁, mem_specTrimLine l₁ c (h₂ ▸ hc)⟩
    have hmemD : ∀ c ∈ joinNL ys ++ y, c = '\n' ∨ ∃ l₁ ∈ ls, c ∈ l₁ := by
      intro c hc
      rcases List.mem_append.mp hc with h1 | h1
      · rcases mem_joinNL ys c h1 with h2 | ⟨l', hl', hcl⟩
        · exact Or.inl h2
        · exact Or.inr (hchar2 l' (List.mem_append_left _ hl') c hcl)
      · exact Or.inr (hchar2 y (List.mem_append_right _ (List.mem_singleton_self y)) c h1)
    have hnb : ∀ c ∈ joinNL ys ++ y, c ≠ Char.ofNat 0xA0 := by
      intro c hc
      rcases hmemD c hc with h2 | ⟨l₁, hm, hcl⟩
      · rw [h2]
        decide
      · exact (hchars l₁ hm c hcl).2.2
    have hdata : replaceNbsp (goTrimRightSpace
        (trimAllLoop (e.Len.toNat + 1) e 0).stringContents) ++ ['\n'] =
        joinNL (ys ++ [y]) := by
      rw [hS, hG, hk, List.dropLast_concat, List.getLastD_concat, hcs]
      rw [replaceNbsp_id _ hnb]
      rw [show joinNL (ys ++ [y]) = joinNL ys ++ (y ++ ['\n']) from by simp [joinNL]]
      rw [List.append_assoc]
    have hnl : ∀ l' ∈ ys ++ [y], '\n' ∉ l' := by
      intro l' hl' hc
      obtain ⟨l₁, h₁, h₂⟩ := hchar2 l' hl' '\n' hc
      exact (hchars l₁ h₁ '\n' h₂).1 rfl
    have hnr : (joinNL (ys ++ [y])).contains '\r' = false := by
      have hmem : '\r' ∉ joinNL (ys ++ [y]) := by
        intro hc
        rcases mem_joinNL (ys ++ [y]) '\r' hc with h2 | ⟨l', hl', hcl⟩
        · cases h2
        · obtain ⟨l₁, h₁, h₂⟩ := hchar2 l' hl' '\r' hcl
          exact (hchars l₁ h₁ '\r' h₂).2.1 rfl
      simpa using hmem
    have hload : ((({ trimAllLoop (e.Len.toNat + 1) e 0 with changed := false }) :
        Editor).LoadFromData (replaceNbsp (goTrimRightSpace
          (trimAllLoop (e.Len.toNat + 1) e 0).stringContents) ++ ['\n'])).lines =
        ofLinesSparseFrom 0 (ys ++ [y]) := by
      rw [hdata, LoadFromData_lines _ _ hnr, splitChar_joinNL (ys ++ [y]) hnl,
        ofLinesSparseFrom_append_nilline]
    have hlen2 : lmLen (ofLinesSparseFrom 0 (ys ++ [y])) = ((ys ++ [y]).length : Int) := by
      refine lmLen_sparse (ys ++ [y]) (by simp) ?_
      rw [show (ys ++ [y]).length - 1 = ys.length from by simp,
        List.getD_append_right ys [y] [] ys.length le_rfl, Nat.sub_self, List.getD_cons_zero]
      exact hyne
    refine ⟨_, _, hsave, ?_, ?_⟩
    · rw [Editor.Len_eq, hload, hlen2, hk]
      have h1 : (1 : Int) ≤ ((ys ++ [y]).length : Int) := by
        simp only [List.length_append, List.length_singleton]
        push_cast
        omega
      rw [max_eq_right h1]
    · intro i
      rw [Line_eq_getD, hload, lmLookupD_sparse, hk]
      by_cases hi : i < (ys ++ [y]).length
      · rw [if_pos ⟨by omega, by omega⟩,
          show ((i : Int) - 0).toNat = i from by omega]
      · rw [if_neg (by omega), List.getD_eq_default _ _ (by omega)]

/-- C2 counterexample: the round-trip does not strip trailing whitespace
from an all-whitespace line.  For the document `["a", " ", "b"]` the claim
demands that the reloaded line 1 be the trailing-whitespace-stripped `""`,
but saving (to a non-image filename) and reloading the written bytes keeps
line 1 as the single space `" "` (the `TrimRight` scan finds no
non-whitespace rune and leaves such a line unchanged). -/
theorem c2_roundtrip_counterexample :
    ((mkEditor (ofLines [['a'], [' '], ['b']]) ⟨0, 0, 0, 0⟩ false 99).LoadFromData
        ((mkEditor (ofLines [['a'], [' '], ['b']]) ⟨0, 0, 0, 0⟩ false 99).Save "f.txt"
          false).textData).Line 1 = [' '] ∧
    claimStripLine [' '] = [] := by
  refine ⟨?_, ?_⟩ <;> decide

/-- C2 witness: the amended round-trip theorem applied to the concrete
document `["hi"]` saved to `"f.txt"`. -/
theorem c2_roundtrip_witness :
    ∃ e' data,
      (mkEditor (ofLines [['h', 'i']]) ⟨0, 0, 0, 0⟩ false 99).Save "f.txt" false =
        SaveResult.text e' data ∧
      (e'.LoadFromData data).Len = max 1 ((specNormalize [['h', 'i']]).length : Int) ∧
      ∀ i : Nat, (e'.LoadFromData data).Line (i : Int) = (specNormalize [['h', 'i']]).getD i [] :=
  c2_roundtrip_amended (mkEditor (ofLines [['h', 'i']]) ⟨0, 0, 0, 0⟩ false 99) [['h', 'i']]
    "f.txt" false rfl (by decide) (by decide) (by decide) (by decide)

/-! ### C4: the trailing-blank trimming loop, computed exactly -/

theorem skipTrailingLoop_calc :
    ∀ (E A : List (List Char)) (y : Int) (fuel : Nat),
      (∀ l ∈ E, l = []) → A.getLastD [] ≠ [] → y < (A.length : Int) - 1 →
      E.length + 1 ≤ fuel →
      skipTrailingLoop fuel (ofLines (A ++ E)) (((A ++ E).length : Int) - 1) y =
        ofLines A := by
  intro E
  induction E using List.reverseRecOn with
  | nil =>
    intro A y fuel hE hlast hy hfuel
    simp only [List.length_nil] at hfuel
    obtain ⟨f, rfl⟩ : ∃ f, fuel = f + 1 := ⟨fuel - 1, by omega⟩
    rw [List.append_nil]
    have hAne : A ≠ [] := fun hc => hlast (by rw [hc]; rfl)
    obtain ⟨A', a, rfl⟩ := exists_concat_of_ne_nil A hAne
    rw [List.getLastD_concat] at hlast
    simp only [skipTrailingLoop]
    rw [if_pos hy]
    have hlk : lmLookup (ofLines (A' ++ [a])) (((A' ++ [a]).length : Int) - 1) = some a := by
      rw [ofLines, lmLookup_ofLinesFrom,
        if_pos (by simp only [List.length_append, List.length_singleton]; push_cast; omega)]
      have hidx : ((((A' ++ [a]).length : Int) - 1) - 0).toNat = A'.length := by
        simp only [List.length_append, List.length_singleton]
        omega
      rw [hidx, List.getD_append_right A' [a] [] A'.length le_rfl, Nat.sub_self,
        List.getD_cons_zero]
    rw [hlk]
    simp only [Option.getD_some]
    rw [if_neg (fun hc => hlast (List.eq_nil_of_length_eq_zero hc))]
  | append_singleton E' e ihE =>
    intro A y fuel hE hlast hy hfuel
    simp only [List.length_append, List.length_singleton] at hfuel
    obtain ⟨f, rfl⟩ : ∃ f, fuel = f + 1 := ⟨fuel - 1, by omega⟩
    have he : e = [] := hE e (List.mem_append_right _ (List.mem_singleton_self e))
    have hassoc : A ++ (E' ++ [e]) = (A ++ E') ++ [e] := (List.append_assoc A E' [e]).symm
    have hidx : ((A ++ E' ++ [e]).length : Int) - 1 = ((A ++ E').length : Int) := by
      simp only [List.length_append, List.length_singleton]
      push_cast
      omega
    simp only [skipTrailingLoop]
    rw [if_pos (by simp only [List.length_append, List.length_singleton]; push_cast; omega)]
    have hlk : lmLookup (ofLines (A ++ (E' ++ [e])))
        (((A ++ (E' ++ [e])).length : Int) - 1) = some e := by
      rw [hassoc, hidx, ofLines, lmLookup_ofLinesFrom,
        if_pos (by simp only [List.length_append, List.length_singleton]; push_cast; omega)]
      have hidx2 : ((((A ++ E').length : Int)) - 0).toNat = (A ++ E').length := by omega
      rw [hidx2, List.getD_append_right (A ++ E') [e] [] _ le_rfl, Nat.sub_self,
        List.getD_cons_zero]
    rw [hlk]
    simp only [Option.getD_some]
    rw [if_pos (by rw [he]; rfl)]
    have hers : lmErase (ofLines (A ++ (E' ++ [e])))
        (((A ++ (E' ++ [e])).length : Int) - 1) = ofLines (A ++ E') := by
      rw [hassoc, hidx, ofLines]
      have h5 := lmErase_ofLinesFrom_last 0 (A ++ E') e
      rw [zero_add] at h5
      exact h5
    rw [hers]
    have hidx3 : (((A ++ (E' ++ [e])).length : Int) - 1) - 1 = ((A ++ E').length : Int) - 1 := by
      simp only [List.length_append, List.length_singleton]
      push_cast
      omega
    rw [hidx3]
    exact ihE A y f (fun l hl => hE l (List.mem_append_left _ hl)) hlast hy (by omega)

theorem skipTrailingLoop_from_size (A E : List (List Char)) (y : Int) (fuel : Nat)
    (hE : ∀ l ∈ E, l = []) (hlast : A.getLastD [] ≠ []) (hy : y < (A.length : Int) - 1)
    (hfuel : E.length + 2 ≤ fuel) :
    skipTrailingLoop fuel (ofLines (A ++ E)) ((A ++ E).length : Int) y = ofLines A := by
  obtain ⟨f, rfl⟩ : ∃ f, fuel = f + 1 := ⟨fuel - 1, by omega⟩
  simp only [skipTrailingLoop]
  rw [if_pos (by simp only [List.length_append]; push_cast; omega)]
  have hlk : lmLookup (ofLines (A ++ E)) ((A ++ E).length : Int) = none := by
    rw [ofLines, lmLookup_ofLinesFrom, if_neg (by omega)]
  rw [hlk]
  simp only [Option.getD_none, List.length_nil, if_pos rfl]
  rw [lmErase_of_lookup_none _ _ hlk]
  exact skipTrailingLoop_calc E A y f hE hlast hy (by omega)

theorem rdropEmpty_ne_nil (xs : List (List Char)) (l : List Char) (hl : l ∈ xs)
    (hlne : l ≠ []) : rdropEmpty xs ≠ [] := by
  intro hc
  rw [rdropEmpty] at hc
  have h2 : xs.reverse.dropWhile (fun l => l.isEmpty) = [] := by
    have h3 := congrArg List.reverse hc
    simpa using h3
  have h4 := List.dropWhile_eq_nil_iff.mp h2 l (List.mem_reverse.mpr hl)
  exact hlne (List.isEmpty_iff.mp h4)

theorem getD_mem_drop (ls : List (List Char)) (k j : Nat) (hkj : k ≤ j)
    (hj : j < ls.length) : ls.getD j [] ∈ ls.drop k := by
  have hb : j - k < (ls.drop k).length := by
    rw [List.length_drop]
    omega
  have heq : ls.getD j [] = (ls.drop k).getD (j - k) [] := by
    rw [List.getD_eq_getElem ls [] hj, List.getD_eq_getElem (ls.drop k) [] hb,
      List.getElem_drop]
    congr 1
    omega
  rw [heq, List.getD_eq_getElem (ls.drop k) [] hb]
  exact List.getElem_mem hb

theorem insertLineBelowAtLines_mid (ls : List (List Char)) (ch : Bool) (y : Int)
    (hy0 : 0 ≤ y) (hy : y < (ls.length : Int) - 1)
    (hbelow : rdropEmpty (ls.drop (y.toNat + 1)) ≠ []) :
    insertLineBelowAtLines (ofLines ls) ch y =
      (ofLines (ls.take (y.toNat + 1) ++ [[]] ++ rdropEmpty (ls.drop (y.toNat + 1))), true) := by
  obtain ⟨yN, rfl⟩ : ∃ yN : Nat, y = (yN : Int) := ⟨y.toNat, by omega⟩
  simp only [Int.toNat_natCast] at hbelow ⊢
  have hyN : yN < ls.length := by omega
  unfold insertLineBelowAtLines
  rw [mcLines_ofLines]
  dsimp only
  rw [if_neg (by rw [lmSize_ofLines]; omega)]
  have hmid := shiftInsertAt_mid 0 ls yN hyN
  rw [zero_add] at hmid
  rw [ofLines, hmid]
  rw [show ofLinesFrom 0 (ls.take (yN + 1) ++ [[]] ++ ls.drop (yN + 1)) =
    ofLines (ls.take (yN + 1) ++ [[]] ++ ls.drop (yN + 1)) from rfl, mcLines_ofLines]
  dsimp only
  rw [lmSize_ofLines]
  have hsplit : rdropEmpty (ls.drop (yN + 1)) ++
      ((ls.drop (yN + 1)).reverse.takeWhile (fun l => l.isEmpty)).reverse =
      ls.drop (yN + 1) := by
    have h : (ls.drop (yN + 1)).reverse.takeWhile (fun l => l.isEmpty) ++
        (ls.drop (yN + 1)).reverse.dropWhile (fun l => l.isEmpty) =
        (ls.drop (yN + 1)).reverse := List.takeWhile_append_dropWhile _ _
    have h2 := congrArg List.reverse h
    rw [List.reverse_append, List.reverse_reverse] at h2
    rw [rdropEmpty]
    exact h2
  have hEmem : ∀ l ∈ ((ls.drop (yN + 1)).reverse.takeWhile (fun l => l.isEmpty)).reverse,
      l = [] := by
    intro l hl
    exact List.isEmpty_iff.mp (List.mem_takeWhile_imp (List.mem_reverse.mp hl))
  obtain ⟨R', r, hRr⟩ := exists_concat_of_ne_nil (rdropEmpty (ls.drop (yN + 1))) hbelow
  have hrne : r ≠ [] := by
    have h5 := congrArg List.reverse hRr
    rw [rdropEmpty, List.reverse_reverse, List.reverse_append] at h5
    simp only [List.reverse_singleton, List.singleton_append] at h5
    have h6 := dropWhile_head_false (fun l : List Char => l.isEmpty) _ r R'.reverse h5
    intro hc
    rw [hc] at h6
    simp at h6
  have hTlen : (ls.take (yN + 1)).length = yN + 1 := by
    rw [List.length_take]
    omega
  have hlastA : (ls.take (yN + 1) ++ [[]] ++ rdropEmpty (ls.drop (yN + 1))).getLastD [] ≠ [] := by
    rw [hRr, show ls.take (yN + 1) ++ [[]] ++ (R' ++ [r]) =
      (ls.take (yN + 1) ++ [[]] ++ R') ++ [r] from by
        rw [List.append_assoc (ls.take (yN + 1) ++ [[]]) R' [r]]]
    rw [List.getLastD_concat]
    exact hrne
  have hyA : (yN : Int) < ((ls.take (yN + 1) ++ [[]] ++
      rdropEmpty (ls.drop (yN + 1))).length : Int) - 1 := by
    have hRlen : 0 < (rdropEmpty (ls.drop (yN + 1))).length := by
      rw [hRr]
      simp
    simp only [List.length_append, List.length_singleton, hTlen]
    push_cast
    omega
  have hElen : ((ls.drop (yN + 1)).reverse.takeWhile (fun l => l.isEmpty)).reverse.length ≤
      ls.length - (yN + 1) := by
    rw [List.length_reverse]
    calc ((ls.drop (yN + 1)).reverse.takeWhile (fun l => l.isEmpty)).length
        ≤ (ls.drop (yN + 1)).reverse.length := (List.takeWhile_sublist _).length_le
      _ = ls.length - (yN + 1) := by rw [List.length_reverse, List.length_drop]
  have hlsplit : ls.take (yN + 1) ++ [[]] ++ ls.drop (yN + 1) =
      (ls.take (yN + 1) ++ [[]] ++ rdropEmpty (ls.drop (yN + 1))) ++
        ((ls.drop (yN + 1)).reverse.takeWhile (fun l => l.isEmpty)).reverse := by
    conv_lhs => rw [← hsplit]
    rw [← List.append_assoc]
  rw [hlsplit]
  rw [skipTrailingLoop_from_size _ _ _ _ hEmem hlastA hyA (by
    have hLlen : ((ls.take (yN + 1) ++ [[]] ++ rdropEmpty (ls.drop (yN + 1))) ++
        ((ls.drop (yN + 1)).reverse.takeWhile (fun l : List Char => l.isEmpty)).reverse).length =
        ls.length + 1 := by
      have h9 := congrArg List.length hlsplit
      simp only [List.length_append, List.length_singleton, hTlen, List.length_drop] at h9 ⊢
      omega
    rw [hLlen]
    omega)]
  rw [mcLines_ofLines]

/-- C4 (amended): with word wrap active, the current line at or over the
wrap threshold, the cursor at-or-after end of line, and a whitespace rune
being inserted, `InsertRune` opens a new blank line below the current line
and relocates no text from it: the result is the original lines with the
current line trailing-trimmed in place, one empty line inserted directly
below it, and — the amendment — the trailing empty lines of the rest of
the document removed by the trimming loop of `InsertLineBelowAt`.  This
requires (second amendment) that the current line be the last line or that
some line strictly below it be non-empty; otherwise that loop also deletes
the just-inserted blank line (see the counterexample). -/
theorem c4_space_at_eol_amended (e : Editor) (c : Option Canvas) (r : Char)
    (ls : List (List Char)) (hne : ls ≠ []) (hl : e.lines = ofLines ls)
    (hww : 0 < e.wordWrapAt) (hlim : e.WithinLimit e.DataY = false)
    (hsp : goIsSpace r = true) (heol : e.AtOrAfterEndOfLine = true)
    (hy0 : 0 ≤ e.DataY)
    (hbelow : e.DataY = (ls.length : Int) - 1 ∨
      ∃ j : Nat, e.DataY < (j : Int) ∧ j < ls.length ∧ ls.getD j [] ≠ []) :
    (e.InsertRune c r).lines =
      ofLines ((ls.take (e.DataY.toNat + 1)).set e.DataY.toNat
          (trimRightLine (ls.getD e.DataY.toNat []))
        ++ [[]] ++ rdropEmpty (ls.drop (e.DataY.toNat + 1))) := by
  have hlen : 0 < ls.length := List.length_pos.mpr hne
  have hyNle : e.DataY.toNat + 1 ≤ ls.length := by
    rcases hbelow with h1 | ⟨j, hj1, hj2, _⟩
    · omega
    · omega
  have hEOL : ({ e with changed := true, redrawCursor := true, redraw := true } :
      Editor).AtOrAfterEndOfLine = true := heol
  have hILB : insertLineBelowAtLines (ofLines ls) true e.DataY =
      (ofLines (ls.take (e.DataY.toNat + 1) ++ [[]] ++
        rdropEmpty (ls.drop (e.DataY.toNat + 1))), true) := by
    rcases hbelow with hcase | ⟨j, hj1, hj2, hj3⟩
    · rw [insertLineBelowAtLines_last ls true e.DataY hne hcase]
      have htk : ls.take (e.DataY.toNat + 1) = ls := List.take_of_length_le (by omega)
      have hdp : ls.drop (e.DataY.toNat + 1) = [] := List.drop_eq_nil_of_le (by omega)
      rw [htk, hdp, show rdropEmpty [] = [] from rfl, List.append_nil]
    · exact insertLineBelowAtLines_mid ls true e.DataY hy0 (by omega)
        (rdropEmpty_ne_nil _ (ls.getD j [])
          (getD_mem_drop ls (e.DataY.toNat + 1) j (by omega) hj2) hj3)
  have hIB : ({ e with changed := true, redrawCursor := true, redraw := true } :
        Editor).InsertLineBelowAt e.DataY =
      { e with changed := true, redrawCursor := true, redraw := true, lines := ofLines (ls.take (e.DataY.toNat + 1) ++ [[]] ++ rdropEmpty (ls.drop (e.DataY.toNat + 1))) } := by
    unfold Editor.InsertLineBelowAt
    have hl1 : ({ e with changed := true, redrawCursor := true, redraw := true } :
        Editor).lines = ofLines ls := hl
    rw [hl1, hILB]
  have hTlen : (ls.take (e.DataY.toNat + 1)).length = e.DataY.toNat + 1 := by
    rw [List.length_take]
    omega
  have hgetd : (ls.take (e.DataY.toNat + 1) ++ [[]] ++
      rdropEmpty (ls.drop (e.DataY.toNat + 1))).getD e.DataY.toNat [] =
      ls.getD e.DataY.toNat [] := by
    rw [List.getD_append _ _ [] e.DataY.toNat
      (by simp only [List.length_append, List.length_singleton, hTlen]; omega)]
    rw [List.getD_append _ _ [] e.DataY.toNat (by rw [hTlen]; omega)]
    rw [List.getD_eq_getElem _ [] (by rw [hTlen]; omega), List.getElem_take,
      List.getD_eq_getElem ls [] (by omega)]
  have hlk : lmLookup (ofLines (ls.take (e.DataY.toNat + 1) ++ [[]] ++
      rdropEmpty (ls.drop (e.DataY.toNat + 1)))) e.DataY =
      some (ls.getD e.DataY.toNat []) := by
    rw [ofLines, lmLookup_ofLinesFrom,
      if_pos (by
        constructor
        · omega
        · simp only [List.length_append, List.length_singleton, hTlen]
          push_cast
          omega)]
    have he1 : (e.DataY - 0).toNat = e.DataY.toNat := by omega
    rw [he1, hgetd]
  have hTR : ({ e with changed := true, redrawCursor := true, redraw := true, lines := ofLines (ls.take (e.DataY.toNat + 1) ++ [[]] ++ rdropEmpty (ls.drop (e.DataY.toNat + 1))) } : Editor).TrimRight e.DataY =
      { e with changed := true, redrawCursor := true, redraw := true, lines := ofLines ((ls.take (e.DataY.toNat + 1)).set e.DataY.toNat (trimRightLine (ls.getD e.DataY.toNat [])) ++ [[]] ++ rdropEmpty (ls.drop (e.DataY.toNat + 1))) } := by
    unfold Editor.TrimRight
    rw [show ({ e with changed := true, redrawCursor := true, redraw := true, lines := ofLines (ls.take (e.DataY.toNat + 1) ++ [[]] ++ rdropEmpty (ls.drop (e.DataY.toNat + 1))) } : Editor).lines = ofLines (ls.take (e.DataY.toNat + 1) ++ [[]] ++ rdropEmpty (ls.drop (e.DataY.toNat + 1))) from rfl]
    rw [hlk]
    have hins : lmInsert (ofLines (ls.take (e.DataY.toNat + 1) ++ [[]] ++
        rdropEmpty (ls.drop (e.DataY.toNat + 1)))) e.DataY
        (trimRightLine (ls.getD e.DataY.toNat [])) =
        ofLines ((ls.take (e.DataY.toNat + 1)).set e.DataY.toNat
          (trimRightLine (ls.getD e.DataY.toNat []))
          ++ [[]] ++ rdropEmpty (ls.drop (e.DataY.toNat + 1))) := by
      have h5 := lmInsert_ofLinesFrom_set 0
        (ls.take (e.DataY.toNat + 1) ++ [[]] ++ rdropEmpty (ls.drop (e.DataY.toNat + 1)))
        e.DataY.toNat (trimRightLine (ls.getD e.DataY.toNat []))
        (by simp only [List.length_append, List.length_singleton, hTlen]; omega)
      rw [zero_add, show ((e.DataY.toNat : Nat) : Int) = e.DataY from by omega] at h5
      rw [ofLines, h5,
        List.set_append_left _ _
          (by simp only [List.length_append, List.length_singleton, hTlen]; omega),
        List.set_append_left _ _ (by rw [hTlen]; omega)]
      rfl
    dsimp only
    rw [hins]
  unfold Editor.InsertRune
  rw [if_neg (by
    intro hor
    rcases hor with h1 | h1
    · omega
    · rw [hlim] at h1; exact Bool.noConfusion h1)]
  dsimp only
  rw [hEOL]
  rw [if_neg (by simp)]
  rw [hsp]
  rw [if_neg (by simp)]
  rw [if_pos ⟨rfl, rfl⟩]
  rw [hIB, hTR]
  rw [MakeConsistent_ofLines _
    ((ls.take (e.DataY.toNat + 1)).set e.DataY.toNat
      (trimRightLine (ls.getD e.DataY.toNat []))
      ++ [[]] ++ rdropEmpty (ls.drop (e.DataY.toNat + 1))) rfl]

/-- C4 witness: the amended theorem applied to the two-line document
`["aaaa", "x"]` with wrap threshold 3 and the cursor at the end of line 0:
the blank line is opened between the two lines. -/
theorem c4_space_at_eol_witness :
    ((mkEditor (ofLines [['a', 'a', 'a', 'a'], ['x']]) ⟨4, 0, 0, 0⟩ false 3).InsertRune
        none ' ').lines =
      ofLines (([['a', 'a', 'a', 'a'], ['x']].take
          ((mkEditor (ofLines [['a', 'a', 'a', 'a'], ['x']]) ⟨4, 0, 0, 0⟩ false 3).DataY.toNat
            + 1)).set
          (mkEditor (ofLines [['a', 'a', 'a', 'a'], ['x']]) ⟨4, 0, 0, 0⟩ false 3).DataY.toNat
          (trimRightLine ([['a', 'a', 'a', 'a'], ['x']].getD
            (mkEditor (ofLines [['a', 'a', 'a', 'a'], ['x']]) ⟨4, 0, 0, 0⟩
              false 3).DataY.toNat []))
        ++ [[]] ++ rdropEmpty ([['a', 'a', 'a', 'a'], ['x']].drop
          ((mkEditor (ofLines [['a', 'a', 'a', 'a'], ['x']]) ⟨4, 0, 0, 0⟩ false 3).DataY.toNat
            + 1))) :=
  c4_space_at_eol_amended
    (mkEditor (ofLines [['a', 'a', 'a', 'a'], ['x']]) ⟨4, 0, 0, 0⟩ false 3) none ' '
    [['a', 'a', 'a', 'a'], ['x']] (by decide) rfl (by decide) (by decide) (by decide)
    (by decide) (by decide)
    (Or.inr ⟨1, by decide, by decide, by decide⟩)
